import Mathlib

/-!
# zond/treap: a shallow embedding of `treap.go`

The Go package stores `[]byte` keys in a randomized binary search tree.  Nodes
are heap-allocated and exclusively owned by their parent, so a subtree is
modelled as a value of an inductive type and every method that reassigns child
links becomes a function returning the rebuilt subtree.

* A key is a byte sequence.  `bytes.Compare` treats a nil slice as the empty
  slice, so stored keys are `List Byte`; only the *bounds* of `Up` / `Down` are
  tested against `nil`, and those are `Option Key`.
* `Thing` is `interface{}`: a stored value is `Option V`, `none` being Go's
  `nil` (also the zero value returned for "no value").
* `rand.Int31()` is an explicit argument: the weight drawn for the new node.
* A nil-pointer dereference is the result `none`.
* The iterator callback is a state transformer, so the sequence of calls is
  observable through the state it threads.
-/

namespace treap

/-- One byte of a key. -/
abbrev Byte := Fin 256

/-- The contents of a `[]byte` key. -/
abbrev Key := List Byte

/-- Go's `bytes.Compare`, from its documentation: lexicographic three-way
comparison with results `-1`, `0`, `+1`. -/
def bytesCompare : Key → Key → Int
  | [], [] => 0
  | [], _ :: _ => -1
  | _ :: _, [] => 1
  | a :: as, b :: bs =>
    if a < b then -1 else if b < a then 1 else bytesCompare as bs

/-- The Go `node` struct behind a `*node`; `nil` is the nil pointer. -/
inductive node (V : Type) where
  | nil : node V
  | mk (weight : Int) (left right : node V) (key : Key) (value : Option V) : node V
  deriving DecidableEq, Repr

/-- The callback type `TreapIterator`, threading the caller's state. -/
abbrev TreapIterator (V σ : Type) := Key → Option V → σ → σ

variable {V σ : Type}

/-- Number of nodes of a subtree. -/
def node.count : node V → Nat
  | .nil => 0
  | .mk _ l r _ _ => l.count + r.count + 1

/-- The function `newNode`, with the drawn weight `w` standing for `rand.Int31()`. -/
def newNode (w : Int) (key : Key) (value : Option V) : node V :=
  .mk w .nil .nil key value

/-- The function `merge`. -/
def merge : node V → node V → node V
  | .nil, right => right
  | .mk lw ll lr lk lv, .nil => .mk lw ll lr lk lv
  | .mk lw ll lr lk lv, .mk rw rl rr rk rv =>
    if lw < rw then
      .mk lw ll (merge lr (.mk rw rl rr rk rv)) lk lv
    else
      .mk rw (merge rl (.mk lw ll lr lk lv)) rr rk rv
termination_by l r => l.count + r.count
decreasing_by
  all_goals simp only [node.count]
  all_goals omega

/-- The method `node.get`. -/
def node.get : node V → Key → Option V × Bool
  | .nil, _ => (none, false)
  | .mk _ l r k v, key =>
    if bytesCompare key k = -1 then l.get key
    else if bytesCompare key k = 1 then r.get key
    else (v, true)

/-- The method `node.up`. -/
def node.up (frm below : Option Key) (f : TreapIterator V σ) : node V → σ → σ
  | .nil, s => s
  | .mk _ l r k v, s =>
    let from_cmp : Int := match frm with
      | none => -1
      | some b => bytesCompare b k
    let below_cmp : Int := match below with
      | none => 1
      | some b => bytesCompare b k
    let s1 := if from_cmp < 0 then l.up frm below f s else s
    let s2 := if from_cmp < 1 ∧ below_cmp > 0 then f k v s1 else s1
    if below_cmp > 0 then r.up frm below f s2 else s2

/-- The method `node.down`. -/
def node.down (frm above : Option Key) (f : TreapIterator V σ) : node V → σ → σ
  | .nil, s => s
  | .mk _ l r k v, s =>
    let from_cmp : Int := match frm with
      | none => -1
      | some b => bytesCompare b k
    let above_cmp : Int := match above with
      | none => 1
      | some b => bytesCompare b k
    let s1 := if from_cmp > 0 then r.down frm above f s else s
    let s2 := if from_cmp > -1 ∧ above_cmp < 0 then f k v s1 else s1
    if above_cmp < 0 then l.down frm above f s2 else s2

/-- The method `node.rotateLeft`; `none` when `self` or `self.left` is nil. -/
def node.rotateLeft : node V → Option (node V)
  | .mk w (.mk lw ll lr lk lv) r k v => some (.mk lw ll (.mk w lr r k v) lk lv)
  | _ => none

/-- The method `node.rotateRight`; `none` when `self` or `self.right` is nil. -/
def node.rotateRight : node V → Option (node V)
  | .mk w l (.mk rw rl rr rk rv) k v => some (.mk rw (.mk w l rl k v) rr rk rv)
  | _ => none

/-- The method `node.del`, returning `(result, existed, old)`. -/
def node.del : node V → Key → node V × Bool × Option V
  | .nil, _ => (.nil, false, none)
  | .mk w l r k v, key =>
    if bytesCompare key k = -1 then
      let (l1, existed, old) := l.del key
      (.mk w l1 r k v, existed, old)
    else if bytesCompare key k = 1 then
      let (r1, existed, old) := r.del key
      (.mk w l r1 k v, existed, old)
    else (merge l r, true, v)

/-- The weight read by `self.left.weight` / `self.right.weight`; `none` on nil. -/
def node.weight? : node V → Option Int
  | .nil => none
  | .mk w _ _ _ _ => some w

/-- The method `node.insert`, returning `(result, existed, old)`; `none` where
the Go code dereferences a nil pointer. -/
def node.insert : node V → node V → Option (node V × Bool × Option V)
  | .nil, n => some (n, false, none)
  | .mk _ _ _ _ _, .nil => none
  | .mk w l r k v, .mk nw nl nr nk nv =>
    if bytesCompare nk k = -1 then
      match l.insert (.mk nw nl nr nk nv) with
      | none => none
      | some (l1, existed, old) =>
        match l1.weight? with
        | none => none
        | some lw =>
          if lw < w then
            match (node.mk w l1 r k v).rotateLeft with
            | none => none
            | some res => some (res, existed, old)
          else some (.mk w l1 r k v, existed, old)
    else if bytesCompare nk k = 1 then
      match r.insert (.mk nw nl nr nk nv) with
      | none => none
      | some (r1, existed, old) =>
        match r1.weight? with
        | none => none
        | some rw =>
          if rw < w then
            match (node.mk w l r1 k v).rotateRight with
            | none => none
            | some res => some (res, existed, old)
          else some (.mk w l r1 k v, existed, old)
    else some (.mk w l r k nv, true, v)

/-- The Go `Treap` struct. -/
structure Treap (V : Type) where
  size : Int
  root : node V
  deriving DecidableEq, Repr

/-- The value `new(Treap)`: no root, size zero. -/
def Treap.new : Treap V := ⟨0, .nil⟩

/-- The method `Treap.Put`, returning the updated treap and `(old, existed)`;
`w` is the weight drawn by `newNode`. -/
def Treap.Put (self : Treap V) (w : Int) (key : Key) (value : Option V) :
    Option (Treap V × Option V × Bool) :=
  match self.root.insert (newNode w key value) with
  | none => none
  | some (root, existed, old) =>
    some (⟨if !existed then self.size + 1 else self.size, root⟩, old, existed)

/-- The method `Treap.Get`. -/
def Treap.Get (self : Treap V) (key : Key) : Option V × Bool :=
  self.root.get key

/-- The method `Treap.Del`, returning the updated treap and `(old, existed)`. -/
def Treap.Del (self : Treap V) (key : Key) : Treap V × Option V × Bool :=
  let (root, existed, old) := self.root.del key
  (⟨if existed then self.size - 1 else self.size, root⟩, old, existed)

/-- The method `Treap.Up`. -/
def Treap.Up (self : Treap V) (frm below : Option Key) (f : TreapIterator V σ) (s : σ) : σ :=
  self.root.up frm below f s

/-- The method `Treap.Down`. -/
def Treap.Down (self : Treap V) (frm above : Option Key) (f : TreapIterator V σ) (s : σ) : σ :=
  self.root.down frm above f s

/-- The method `Treap.Size`. -/
def Treap.Size (self : Treap V) : Int := self.size

/-- The method `Treap.ToMap`; a Go `map[string]Thing` is a finite partial function. -/
def Treap.ToMap (self : Treap V) : Key → Option (Option V) :=
  self.Up none none (fun key value rval => Function.update rval key (some value)) (fun _ => none)

/-- The stored `(key, value)` pairs of a subtree, left to right. -/
def node.toList : node V → List (Key × Option V)
  | .nil => []
  | .mk _ l r k v => l.toList ++ (k, v) :: r.toList

/-- The binary-search-tree property: every key of the left subtree is below
the node's key and every key of the right subtree above it, at every node. -/
def node.BST : node V → Prop
  | .nil => True
  | .mk _ l r k _ =>
    (∀ p ∈ l.toList, p.1 < k) ∧ (∀ p ∈ r.toList, k < p.1) ∧ l.BST ∧ r.BST

instance node.decidableBST : (t : node V) → Decidable t.BST
  | .nil => isTrue trivial
  | .mk _ l r k _ =>
    have := node.decidableBST l
    have := node.decidableBST r
    inferInstanceAs (Decidable
      ((∀ p ∈ l.toList, p.1 < k) ∧ (∀ p ∈ r.toList, k < p.1) ∧ l.BST ∧ r.BST))

/-- The iterator that appends each pair it is called with to a log. -/
def record : TreapIterator V (List (Key × Option V)) :=
  fun key value log => log ++ [(key, value)]

/-- Running a list of calls of the iterator `f`, first call first. -/
def replay (f : TreapIterator V σ) (calls : List (Key × Option V)) (s : σ) : σ :=
  calls.foldl (fun acc p => f p.1 p.2 acc) s

/-- Whether a key lies in `[frm, below)`, an absent bound being no bound. -/
def upKeep (frm below : Option Key) (p : Key × Option V) : Bool :=
  (match frm with
    | none => true
    | some a => decide (a ≤ p.1)) &&
  (match below with
    | none => true
    | some b => decide (p.1 < b))

/-- Whether a key lies in `(above, frm]`, both bounds present. -/
def downKeep (frm above : Key) (p : Key × Option V) : Bool :=
  decide (above < p.1) && decide (p.1 ≤ frm)

/-- One step of a run of the treap: a `Put`, with the weight drawn for its new
node, or a `Del`. -/
inductive Op (V : Type) where
  | put (w : Int) (key : Key) (value : Option V) : Op V
  | del (key : Key) : Op V
  deriving DecidableEq, Repr

/-- Applying the operations to a treap, first operation first; `none` when a
`Put` fails. -/
def Treap.run : Treap V → List (Op V) → Option (Treap V)
  | t, [] => some t
  | t, .put w key value :: ops =>
    match t.Put w key value with
    | none => none
    | some (t1, _) => t1.run ops
  | t, .del key :: ops => (t.Del key).1.run ops

/-- The reference map of the differential test after the same operations:
`m[key] = value` for a `Put`, `delete(m, key)` for a `Del`. -/
def refMap (ops : List (Op V)) : Key → Option (Option V) :=
  ops.foldl
    (fun m op =>
      match op with
      | .put _ key value => Function.update m key (some value)
      | .del key => Function.update m key none)
    (fun _ => none)

/-- The keys `"0"` to `"9"` with the values `0` to `9` of `TestTreapEach`, as
`Put` in that order builds them when the drawn weights increase. -/
def digits : Treap Nat :=
  ⟨10,
    .mk 0 .nil (.mk 1 .nil (.mk 2 .nil (.mk 3 .nil (.mk 4 .nil (.mk 5 .nil (.mk 6 .nil
      (.mk 7 .nil (.mk 8 .nil (.mk 9 .nil .nil [57] (some 9)) [56] (some 8)) [55] (some 7))
      [54] (some 6)) [53] (some 5)) [52] (some 4)) [51] (some 3)) [50] (some 2))
      [49] (some 1)) [48] (some 0)⟩

/-- Four keys `"a"`, `"b"`, `"c"`, `"d"` under the root `"b"`, as built by
`Put` of `"b"`, `"d"`, `"a"`, `"c"` with the weights `0`, `1`, `2`, `3`. -/
def letters : Treap Nat :=
  ⟨4,
    .mk 0 (.mk 2 .nil .nil [97] (some 1))
      (.mk 1 (.mk 3 .nil .nil [99] (some 3)) .nil [100] (some 4)) [98] (some 2)⟩

/-- The operations that build `letters` and then delete its root key `"b"`. -/
def lettersOps : List (Op Nat) :=
  [.put 0 [98] (some 2), .put 1 [100] (some 4), .put 2 [97] (some 1), .put 3 [99] (some 3),
    .del [98]]

/-- The `(key, value, weight)` entries of a subtree, left to right. -/
def node.entries : node V → List (Key × Option V × Int)
  | .nil => []
  | .mk w l r k v => l.entries ++ (k, v, w) :: r.entries

/-- Whether `w` is at most the weight of the child `c`, when the child exists. -/
def node.weightLE (w : Int) : node V → Prop
  | .nil => True
  | .mk cw _ _ _ _ => w ≤ cw

instance node.decidableWeightLE (w : Int) : (c : node V) → Decidable (c.weightLE w)
  | .nil => isTrue trivial
  | .mk cw _ _ _ _ => inferInstanceAs (Decidable (w ≤ cw))

/-- The heap property: at every node the weight is at most the weight of each
child that exists. -/
def node.Heap : node V → Prop
  | .nil => True
  | .mk w l r _ _ => l.weightLE w ∧ r.weightLE w ∧ l.Heap ∧ r.Heap

instance node.decidableHeap : (t : node V) → Decidable t.Heap
  | .nil => isTrue trivial
  | .mk w l r _ _ =>
    have := node.decidableHeap l
    have := node.decidableHeap r
    inferInstanceAs (Decidable (l.weightLE w ∧ r.weightLE w ∧ l.Heap ∧ r.Heap))

/-- The node at a position of the tree, as `(weight, key, value)`; a position
is the list of turns from the root, `false` for left and `true` for right. -/
def node.nodeAt : node V → List Bool → Option (Int × Key × Option V)
  | .nil, _ => none
  | .mk w _ _ k v, [] => some (w, k, v)
  | .mk _ l _ _ _, false :: q => l.nodeAt q
  | .mk _ _ r _ _, true :: q => r.nodeAt q

/-- The position of the node that `get` reaches for a key, when it finds one. -/
def node.pathTo : node V → Key → Option (List Bool)
  | .nil, _ => none
  | .mk _ l r k _, key =>
    if bytesCompare key k = -1 then (l.pathTo key).map (fun q => false :: q)
    else if bytesCompare key k = 1 then (r.pathTo key).map (fun q => true :: q)
    else some []

/-- The iterator that counts its calls. -/
def tally : TreapIterator V Nat :=
  fun _ _ calls => calls + 1

/-- One `Put` for each `(weight, key, value)` entry, in the order of the list. -/
def puts (es : List (Int × Key × Option V)) : List (Op V) :=
  es.map (fun e => Op.put e.1 e.2.1 e.2.2)

/-!
## The byte order
-/

theorem cons_lt_cons_iff (a b : Byte) (as bs : Key) :
    (a :: as : Key) < b :: bs ↔ a < b ∨ (a = b ∧ as < bs) := by
  constructor
  · intro h
    cases h with
    | cons h => exact Or.inr ⟨rfl, h⟩
    | rel h => exact Or.inl h
  · rintro (h | ⟨rfl, h⟩)
    · exact List.Lex.rel h
    · exact List.Lex.cons h

/-- The result of `bytesCompare` is decided by the lexicographic order. -/
theorem bytesCompare_eq (a b : Key) :
    bytesCompare a b = if a < b then -1 else if b < a then 1 else 0 := by
  induction a generalizing b with
  | nil =>
    cases b with
    | nil => simp [bytesCompare]
    | cons b bs => simp [bytesCompare, List.nil_lt_cons]
  | cons a as ih =>
    cases b with
    | nil =>
      have h1 : ¬ (a :: as : Key) < [] := fun h => by cases h
      simp [bytesCompare, h1, List.nil_lt_cons]
    | cons b bs =>
      rw [bytesCompare, ih bs]
      simp only [cons_lt_cons_iff]
      rcases lt_trichotomy a b with h | h | h
      · simp [h, not_lt_of_lt h, ne_of_gt h]
      · subst h; simp
      · have h2 : ¬ a < b := not_lt_of_lt h
        have h3 : a ≠ b := ne_of_gt h
        simp [h, h2, h3]

theorem bytesCompare_lt_iff (a b : Key) : bytesCompare a b = -1 ↔ a < b := by
  rw [bytesCompare_eq]; split_ifs <;> simp [*]

theorem bytesCompare_gt_iff (a b : Key) : bytesCompare a b = 1 ↔ b < a := by
  rw [bytesCompare_eq]; split_ifs with h1 h2 <;> simp [*, not_lt_of_lt]

theorem bytesCompare_eq_zero_iff (a b : Key) : bytesCompare a b = 0 ↔ a = b := by
  rw [bytesCompare_eq]
  split_ifs with h1 h2
  · simp [ne_of_lt h1]
  · simp [ne_of_gt h2]
  · simp; exact le_antisymm (not_lt.mp h2) (not_lt.mp h1)

theorem bytesCompare_neg_iff (a b : Key) : bytesCompare a b < 0 ↔ a < b := by
  rw [bytesCompare_eq]; split_ifs <;> simp [*]

theorem bytesCompare_pos_iff (a b : Key) : bytesCompare a b > 0 ↔ b < a := by
  rw [bytesCompare_eq]; split_ifs with h1 h2 <;> simp [*, not_lt_of_lt]

theorem bytesCompare_lt_one_iff (a b : Key) : bytesCompare a b < 1 ↔ a ≤ b := by
  rw [bytesCompare_eq]; split_ifs with h1 h2
  · simp [le_of_lt h1]
  · simp [h2]
  · simp [not_lt.mp h2]

theorem bytesCompare_gt_neg_one_iff (a b : Key) : bytesCompare a b > -1 ↔ b ≤ a := by
  rw [bytesCompare_eq]; split_ifs with h1 h2
  · simp [h1]
  · simp [le_of_lt h2]
  · simp [not_lt.mp h1]

theorem replay_nil (f : TreapIterator V σ) (s : σ) : replay f [] s = s := rfl

theorem replay_append (f : TreapIterator V σ) (xs ys : List (Key × Option V)) (s : σ) :
    replay f (xs ++ ys) s = replay f ys (replay f xs s) := by
  simp [replay, List.foldl_append]

theorem replay_cons (f : TreapIterator V σ) (p : Key × Option V) (ys : List (Key × Option V))
    (s : σ) : replay f (p :: ys) s = replay f ys (f p.1 p.2 s) := rfl

theorem replay_record (xs acc : List (Key × Option V)) : replay record xs acc = acc ++ xs := by
  induction xs generalizing acc with
  | nil => simp [replay]
  | cons p xs ih => rw [replay_cons, ih]; simp [record]

/-- On a search tree `up` makes exactly the calls for the stored pairs inside the
bounds, left to right. -/
theorem up_eq_filter (frm below : Option Key) (f : TreapIterator V σ) (t : node V)
    (h : t.BST) (s : σ) :
    t.up frm below f s = replay f (t.toList.filter (upKeep frm below)) s := by
  induction t generalizing s with
  | nil => simp [node.up, node.toList, replay]
  | mk w l r k v ihl ihr =>
    obtain ⟨hl, hr, bl, br⟩ := h
    simp only [node.up, node.toList, List.filter_append, List.filter_cons, replay_append]
    have el : ∀ a, frm = some a → ¬ a < k → l.toList.filter (upKeep frm below) = [] := by
      intro a ha hak
      rw [List.filter_eq_nil_iff]
      intro p hp
      have := hl p hp
      simp [upKeep, ha, not_le.mpr (lt_of_lt_of_le this (not_lt.mp hak))]
    have er : ∀ b, below = some b → ¬ k < b → r.toList.filter (upKeep frm below) = [] := by
      intro b hb hkb
      rw [List.filter_eq_nil_iff]
      intro p hp
      have := hr p hp
      simp [upKeep, hb, not_lt.mpr (le_trans (not_lt.mp hkb) (le_of_lt this))]
    cases frm with
    | none =>
      cases below with
      | none => simp [upKeep, ihl bl, ihr br, replay_cons, replay_nil]
      | some b =>
        by_cases hkb : k < b
        · simp [upKeep, ihl bl, ihr br, replay_cons, replay_nil, bytesCompare_pos_iff, hkb]
        · simp [ihl bl, replay_nil, bytesCompare_pos_iff, hkb, er b rfl hkb]
          simp [upKeep, hkb, replay_nil]
    | some a =>
      cases below with
      | none =>
        by_cases hak : a < k
        · simp [upKeep, ihl bl, ihr br, replay_cons, replay_nil, bytesCompare_neg_iff,
            bytesCompare_lt_one_iff, hak, le_of_lt hak]
        · simp only [bytesCompare_neg_iff, hak, el a rfl hak, if_false, replay_nil,
            bytesCompare_lt_one_iff]
          by_cases hak2 : a ≤ k
          · simp [upKeep, ihr br, replay_cons, replay_nil, hak2]
          · simp [upKeep, ihr br, replay_cons, replay_nil, hak2]
      | some b =>
        by_cases hak : a < k <;> by_cases hkb : k < b
        · simp [upKeep, ihl bl, ihr br, replay_cons, replay_nil, bytesCompare_neg_iff,
            bytesCompare_lt_one_iff, bytesCompare_pos_iff, hak, le_of_lt hak, hkb]
        · simp [ihl bl, replay_nil, bytesCompare_pos_iff, bytesCompare_neg_iff, hak, hkb,
            er b rfl hkb]
          simp [upKeep, hkb, replay_nil]
        · simp only [bytesCompare_neg_iff, hak, el a rfl hak, if_false, replay_nil,
            bytesCompare_lt_one_iff, bytesCompare_pos_iff, hkb, and_true, if_true]
          by_cases hak2 : a ≤ k
          · simp [upKeep, ihr br, replay_cons, replay_nil, hak2, hkb]
          · simp [upKeep, ihr br, replay_cons, replay_nil, hak2]
        · simp only [bytesCompare_neg_iff, hak, el a rfl hak, er b rfl hkb, if_false, replay_nil,
            bytesCompare_lt_one_iff, bytesCompare_pos_iff, hkb, and_false]
          simp [upKeep, hkb, replay_nil]

/-- On a search tree `down` with both bounds present makes exactly the calls for
the stored pairs inside the bounds, right to left. -/
theorem down_eq_filter (a b : Key) (f : TreapIterator V σ) (t : node V)
    (h : t.BST) (s : σ) :
    t.down (some a) (some b) f s = replay f (t.toList.reverse.filter (downKeep a b)) s := by
  induction t generalizing s with
  | nil => simp [node.down, node.toList, replay]
  | mk w l r k v ihl ihr =>
    obtain ⟨hl, hr, bl, br⟩ := h
    simp only [node.down, node.toList, List.reverse_append, List.reverse_cons,
      List.filter_append, List.filter_cons, replay_append, List.append_assoc]
    have el : ¬ b < k → l.toList.reverse.filter (downKeep a b) = [] := by
      intro hbk
      rw [List.filter_eq_nil_iff]
      intro p hp
      have := hl p (List.mem_reverse.mp hp)
      simp [downKeep, not_lt.mpr (le_trans (le_of_lt this) (not_lt.mp hbk))]
    have er : ¬ k < a → r.toList.reverse.filter (downKeep a b) = [] := by
      intro hka
      rw [List.filter_eq_nil_iff]
      intro p hp
      have := hr p (List.mem_reverse.mp hp)
      simp [downKeep, not_le.mpr (lt_of_le_of_lt (not_lt.mp hka) this)]
    by_cases hka : k < a <;> by_cases hbk : b < k
    · simp [downKeep, ihl bl, ihr br, replay_cons, replay_nil, bytesCompare_neg_iff,
        bytesCompare_gt_neg_one_iff, bytesCompare_pos_iff, hka, le_of_lt hka, hbk]
    · simp [ihr br, replay_nil, bytesCompare_pos_iff, bytesCompare_neg_iff, hka, hbk,
        el hbk]
      simp [downKeep, hbk, replay_nil]
    · simp only [bytesCompare_pos_iff, hka, er hka, if_false, replay_nil,
        bytesCompare_gt_neg_one_iff, bytesCompare_neg_iff, hbk, and_true, if_true]
      by_cases hka2 : k ≤ a
      · simp [downKeep, ihl bl, replay_cons, replay_nil, hka2, hbk]
      · simp [downKeep, ihl bl, replay_cons, replay_nil, hka2]
    · simp only [bytesCompare_pos_iff, hka, er hka, el hbk, if_false, replay_nil,
        bytesCompare_gt_neg_one_iff, bytesCompare_neg_iff, hbk, and_false]
      simp [downKeep, hbk, replay_nil]

/-- With an absent `from` the iterator is never called by `down`. -/
theorem down_none_from (above : Option Key) (f : TreapIterator V σ) (t : node V) (s : σ) :
    t.down none above f s = s := by
  induction t generalizing s with
  | nil => rfl
  | mk w l r k v ihl _ =>
    simp [node.down, ihl]

/-- With an absent `above` the iterator is never called by `down`. -/
theorem down_none_above (frm : Option Key) (f : TreapIterator V σ) (t : node V) (s : σ) :
    t.down frm none f s = s := by
  induction t generalizing s with
  | nil => rfl
  | mk w l r k v _ ihr =>
    simp [node.down, ihr]

/-- The stored keys of a search tree increase strictly from left to right. -/
theorem toList_sorted (t : node V) (h : t.BST) :
    t.toList.Pairwise (fun p q => p.1 < q.1) := by
  induction t with
  | nil => simp [node.toList]
  | mk w l r k v ihl ihr =>
    obtain ⟨hl, hr, bl, br⟩ := h
    simp only [node.toList, List.pairwise_append, List.pairwise_cons]
    refine ⟨ihl bl, ⟨fun p hp => hr p hp, ihr br⟩, ?_⟩
    intro p hp q hq
    rcases List.mem_cons.mp hq with rfl | hq
    · exact hl p hp
    · exact lt_trans (hl p hp) (hr q hq)

theorem insert_nil (n : node V) : (node.nil : node V).insert n = some (n, false, none) := by
  cases n <;> rfl

/-- One step of `insert` into the left subtree, the recursive call having
returned an existing node. -/
theorem insert_lt_step {w : Int} {l r : node V} {k : Key} {v : Option V}
    {nw : Int} {nl nr : node V} {nk : Key} {nv : Option V}
    {lw : Int} {ll lr : node V} {lk : Key} {lv : Option V} {e : Bool} {o : Option V}
    (hc : bytesCompare nk k = -1)
    (h : l.insert (.mk nw nl nr nk nv) = some (.mk lw ll lr lk lv, e, o)) :
    (node.mk w l r k v).insert (.mk nw nl nr nk nv) =
      some (if lw < w then .mk lw ll (.mk w lr r k v) lk lv
            else .mk w (.mk lw ll lr lk lv) r k v, e, o) := by
  simp only [node.insert, hc, h, node.weight?, node.rotateLeft, if_true]
  split_ifs <;> rfl

/-- One step of `insert` into the right subtree, the recursive call having
returned an existing node. -/
theorem insert_gt_step {w : Int} {l r : node V} {k : Key} {v : Option V}
    {nw : Int} {nl nr : node V} {nk : Key} {nv : Option V}
    {rw : Int} {rl rr : node V} {rk : Key} {rv : Option V} {e : Bool} {o : Option V}
    (hc : bytesCompare nk k = 1)
    (h : r.insert (.mk nw nl nr nk nv) = some (.mk rw rl rr rk rv, e, o)) :
    (node.mk w l r k v).insert (.mk nw nl nr nk nv) =
      some (if rw < w then .mk rw (.mk w l rl k v) rr rk rv
            else .mk w l (.mk rw rl rr rk rv) k v, e, o) := by
  have hc1 : ¬ bytesCompare nk k = -1 := by rw [hc]; decide
  rw [node.insert, if_neg hc1, if_pos hc, h]
  simp only [node.weight?, node.rotateRight]
  split_ifs <;> rfl

/-- The step of `insert` at a node holding the key. -/
theorem insert_eq_step {w : Int} {l r : node V} {k : Key} {v : Option V}
    {nw : Int} {nl nr : node V} {nk : Key} {nv : Option V}
    (hc1 : ¬ bytesCompare nk k = -1) (hc2 : ¬ bytesCompare nk k = 1) :
    (node.mk w l r k v).insert (.mk nw nl nr nk nv) = some (.mk w l r k nv, true, v) := by
  simp only [node.insert, hc1, hc2, if_false]

/-- What `insert` of a fresh node does: it returns an existing node together
with the result `get` had before, the key is then found with the new value, and
the stored pairs are the old ones apart from those of that key. -/
theorem insert_newNode_spec (t : node V) (w : Int) (key : Key) (value : Option V) :
    ∃ t1 : node V,
      t.insert (newNode w key value) = some (t1, (t.get key).2, (t.get key).1) ∧
      t1 ≠ .nil ∧
      t1.get key = (value, true) ∧
      (∀ p, p ∈ t1.toList → p = (key, value) ∨ p ∈ t.toList) ∧
      (∀ p, p ∈ t.toList → p.1 ≠ key → p ∈ t1.toList) := by
  induction t with
  | nil =>
    refine ⟨newNode w key value, insert_nil _, by simp [newNode], ?_, ?_, ?_⟩
    · have h0 : bytesCompare key key = 0 := (bytesCompare_eq_zero_iff _ _).mpr rfl
      simp [newNode, node.get, h0]
    · intro p hp; left; simpa [newNode, node.toList] using hp
    · intro p hp; simp [node.toList] at hp
  | mk tw l r k v ihl ihr =>
    by_cases hc : bytesCompare key k = -1
    · obtain ⟨l1, hins, hne, hget, hsub, hsup⟩ := ihl
      cases l1 with
      | nil => exact absurd rfl hne
      | mk lw ll lr lk lv =>
        refine ⟨if lw < tw then .mk lw ll (.mk tw lr r k v) lk lv
          else .mk tw (.mk lw ll lr lk lv) r k v, ?_, ?_, ?_, ?_, ?_⟩
        · rw [newNode] at hins ⊢
          rw [insert_lt_step hc hins]
          simp [node.get, hc]
        · split_ifs <;> simp
        · simp only [node.get] at hget
          split_ifs <;> simp only [node.get, hc, if_true] <;> exact hget
        · intro p hp
          have hp' : p ∈ (node.mk lw ll lr lk lv).toList ∨ p = (k, v) ∨ p ∈ r.toList := by
            split_ifs at hp <;> simp [node.toList] at hp ⊢ <;> tauto
          rcases hp' with h | h | h
          · rcases hsub p h with h | h
            · exact Or.inl h
            · right; simp [node.toList, h]
          · right; simp [node.toList, h]
          · right; simp [node.toList, h]
        · intro p hp hk
          have hp' : p ∈ l.toList ∨ p = (k, v) ∨ p ∈ r.toList := by
            simpa [node.toList] using hp
          have hl : p ∈ l.toList → p ∈ (node.mk lw ll lr lk lv).toList := fun h => hsup p h hk
          split_ifs <;> simp [node.toList] at hl ⊢ <;> tauto
    · by_cases hc2 : bytesCompare key k = 1
      · obtain ⟨r1, hins, hne, hget, hsub, hsup⟩ := ihr
        cases r1 with
        | nil => exact absurd rfl hne
        | mk rw rl rr rk rv =>
          refine ⟨if rw < tw then .mk rw (.mk tw l rl k v) rr rk rv
            else .mk tw l (.mk rw rl rr rk rv) k v, ?_, ?_, ?_, ?_, ?_⟩
          · rw [newNode] at hins ⊢
            rw [insert_gt_step hc2 hins]
            simp [node.get, hc, hc2]
          · split_ifs <;> simp
          · simp only [node.get] at hget
            split_ifs <;> simp only [node.get, hc, hc2, if_true, if_false] <;> exact hget
          · intro p hp
            have hp' : p ∈ (node.mk rw rl rr rk rv).toList ∨ p = (k, v) ∨ p ∈ l.toList := by
              split_ifs at hp <;> simp [node.toList] at hp ⊢ <;> tauto
            rcases hp' with h | h | h
            · rcases hsub p h with h | h
              · exact Or.inl h
              · right; simp [node.toList, h]
            · right; simp [node.toList, h]
            · right; simp [node.toList, h]
          · intro p hp hk
            have hp' : p ∈ l.toList ∨ p = (k, v) ∨ p ∈ r.toList := by
              simpa [node.toList] using hp
            have hr : p ∈ r.toList → p ∈ (node.mk rw rl rr rk rv).toList := fun h => hsup p h hk
            split_ifs <;> simp [node.toList] at hr ⊢ <;> tauto
      · have hk : key = k := by
          have := bytesCompare_eq key k
          rw [bytesCompare_lt_iff] at hc
          rw [bytesCompare_gt_iff] at hc2
          exact le_antisymm (not_lt.mp hc2) (not_lt.mp hc)
        refine ⟨.mk tw l r k value, ?_, by simp, ?_, ?_, ?_⟩
        · rw [newNode, insert_eq_step hc hc2]
          simp [node.get, hc, hc2]
        · simp [node.get, hc, hc2]
        · intro p hp
          simp only [node.toList, List.mem_append, List.mem_cons] at hp ⊢
          subst hk
          tauto
        · intro p hp hpk
          simp only [node.toList, List.mem_append, List.mem_cons] at hp ⊢
          subst hk
          rcases hp with h | h | h
          · exact Or.inl h
          · subst h; exact absurd rfl hpk
          · exact Or.inr (Or.inr h)

/-- A pair that `get` finds is stored in the tree. -/
theorem get_found_mem (t : node V) (key : Key) (x : Option V) (h : t.get key = (x, true)) :
    (key, x) ∈ t.toList := by
  induction t with
  | nil => simp [node.get] at h
  | mk w l r k v ihl ihr =>
    simp only [node.get] at h
    simp only [node.toList, List.mem_append, List.mem_cons]
    split_ifs at h with h1 h2
    · exact Or.inl (ihl h)
    · exact Or.inr (Or.inr (ihr h))
    · have hk : key = k := by
        rw [bytesCompare_lt_iff] at h1
        rw [bytesCompare_gt_iff] at h2
        exact le_antisymm (not_lt.mp h2) (not_lt.mp h1)
      simp only [Prod.mk.injEq, and_true] at h
      exact Or.inr (Or.inl (by rw [hk, h]))

/-- The result of `get` is either "not found" with the zero value or a found pair. -/
theorem get_cases (t : node V) (key : Key) :
    t.get key = (none, false) ∨ ∃ x, t.get key = (x, true) := by
  induction t with
  | nil => exact Or.inl rfl
  | mk w l r k v ihl ihr =>
    simp only [node.get]
    split_ifs
    · exact ihl
    · exact ihr
    · exact Or.inr ⟨v, rfl⟩

/-- A key stored nowhere in the tree is not found. -/
theorem get_of_not_mem (t : node V) (key : Key) (h : ∀ p ∈ t.toList, p.1 ≠ key) :
    t.get key = (none, false) := by
  rcases get_cases t key with h1 | ⟨x, h1⟩
  · exact h1
  · exact absurd rfl (h _ (get_found_mem t key x h1))

/-- In a search tree every stored pair is found under its key. -/
theorem get_of_mem (t : node V) (hb : t.BST) (key : Key) (x : Option V)
    (h : (key, x) ∈ t.toList) : t.get key = (x, true) := by
  induction t with
  | nil => simp [node.toList] at h
  | mk w l r k v ihl ihr =>
    obtain ⟨hl, hr, bl, br⟩ := hb
    simp only [node.toList, List.mem_append, List.mem_cons, Prod.mk.injEq] at h
    simp only [node.get, bytesCompare_lt_iff, bytesCompare_gt_iff]
    rcases h with h | ⟨h1, h2⟩ | h
    · have := hl _ h
      simp only at this
      rw [if_pos this]
      exact ihl bl h
    · subst h1; subst h2
      simp
    · have := hr _ h
      simp only at this
      rw [if_neg (not_lt_of_lt this), if_pos this]
      exact ihr br h

/-- A tree is a search tree exactly when its stored keys increase strictly from
left to right. -/
theorem BST_iff_sorted (t : node V) :
    t.BST ↔ t.toList.Pairwise (fun p q => p.1 < q.1) := by
  refine ⟨toList_sorted t, ?_⟩
  induction t with
  | nil => intro _; trivial
  | mk w l r k v ihl ihr =>
    intro h
    simp only [node.toList, List.pairwise_append, List.pairwise_cons] at h
    obtain ⟨h1, ⟨h2, h3⟩, h4⟩ := h
    exact ⟨fun p hp => h4 p hp (k, v) (List.mem_cons_self _ _), h2, ihl h1, ihr h3⟩

/-- The method `insert` keeps a search tree a search tree. -/
theorem insert_BST (t : node V) (hb : t.BST) (w : Int) (key : Key) (value : Option V)
    (t1 : node V) (e : Bool) (o : Option V)
    (h : t.insert (newNode w key value) = some (t1, e, o)) : t1.BST := by
  induction t generalizing t1 e o with
  | nil =>
    rw [insert_nil] at h
    simp only [Option.some.injEq, Prod.mk.injEq] at h
    rw [← h.1]
    simp [newNode, node.BST, node.toList]
  | mk tw l r k v ihl ihr =>
    obtain ⟨hl, hr, bl, br⟩ := hb
    by_cases hc : bytesCompare key k = -1
    · obtain ⟨l1, hins, hne, -, hsub, -⟩ := insert_newNode_spec l w key value
      have hb1 := ihl bl l1 _ _ hins
      have hlt : key < k := (bytesCompare_lt_iff _ _).mp hc
      have hl1 : ∀ p ∈ l1.toList, p.1 < k := by
        intro p hp
        rcases hsub p hp with h | h
        · rw [h]; exact hlt
        · exact hl p h
      cases l1 with
      | nil => exact absurd rfl hne
      | mk lw ll lr lk lv =>
        rw [newNode] at hins h
        rw [insert_lt_step hc hins] at h
        simp only [Option.some.injEq, Prod.mk.injEq] at h
        rw [← h.1]
        obtain ⟨hll, hlr, bll, blr⟩ := hb1
        simp only [node.toList, List.mem_append, List.mem_cons] at hl1
        split_ifs
        · refine ⟨hll, ?_, bll, ?_, hr, blr, br⟩
          · intro p hp
            simp only [node.toList, List.mem_append, List.mem_cons] at hp
            have hlk : lk < k := hl1 (lk, lv) (Or.inr (Or.inl rfl))
            rcases hp with hp | hp | hp
            · exact hlr p hp
            · rw [hp]; exact hlk
            · exact lt_trans hlk (hr p hp)
          · intro p hp
            exact hl1 p (Or.inr (Or.inr hp))
        · refine ⟨?_, hr, ⟨hll, hlr, bll, blr⟩, br⟩
          intro p hp
          simp only [node.toList, List.mem_append, List.mem_cons] at hp
          exact hl1 p hp
    · by_cases hc2 : bytesCompare key k = 1
      · obtain ⟨r1, hins, hne, -, hsub, -⟩ := insert_newNode_spec r w key value
        have hb1 := ihr br r1 _ _ hins
        have hgt : k < key := (bytesCompare_gt_iff _ _).mp hc2
        have hr1 : ∀ p ∈ r1.toList, k < p.1 := by
          intro p hp
          rcases hsub p hp with h | h
          · rw [h]; exact hgt
          · exact hr p h
        cases r1 with
        | nil => exact absurd rfl hne
        | mk rw rl rr rk rv =>
          rw [newNode] at hins h
          rw [insert_gt_step hc2 hins] at h
          simp only [Option.some.injEq, Prod.mk.injEq] at h
          rw [← h.1]
          obtain ⟨hrl, hrr, brl, brr⟩ := hb1
          simp only [node.toList, List.mem_append, List.mem_cons] at hr1
          split_ifs
          · refine ⟨?_, hrr, ⟨hl, ?_, bl, brl⟩, brr⟩
            · intro p hp
              simp only [node.toList, List.mem_append, List.mem_cons] at hp
              have hrk : k < rk := hr1 (rk, rv) (Or.inr (Or.inl rfl))
              rcases hp with hp | hp | hp
              · exact lt_trans (hl p hp) hrk
              · rw [hp]; exact hrk
              · exact hrl p hp
            · intro p hp
              exact hr1 p (Or.inl hp)
          · refine ⟨hl, ?_, bl, ⟨hrl, hrr, brl, brr⟩⟩
            intro p hp
            simp only [node.toList, List.mem_append, List.mem_cons] at hp
            exact hr1 p hp
      · rw [newNode, insert_eq_step hc hc2] at h
        simp only [Option.some.injEq, Prod.mk.injEq] at h
        rw [← h.1]
        exact ⟨hl, hr, bl, br⟩

/-- The function `merge` keeps exactly the stored pairs of its two arguments. -/
theorem mem_merge (l r : node V) (p : Key × Option V) :
    p ∈ (merge l r).toList ↔ p ∈ l.toList ∨ p ∈ r.toList := by
  induction l, r using merge.induct with
  | case1 r => simp [merge, node.toList]
  | case2 lw ll lr lk lv => simp [merge, node.toList]
  | case3 lw ll lr lk lv rw rl rr rk rv h ih =>
    rw [merge, if_pos h]
    simp only [node.toList, List.mem_append, List.mem_cons] at ih ⊢
    rw [ih]; tauto
  | case4 lw ll lr lk lv rw rl rr rk rv h ih =>
    rw [merge, if_neg h]
    simp only [node.toList, List.mem_append, List.mem_cons] at ih ⊢
    rw [ih]; tauto

/-- The method `del` reports what `get` finds. -/
theorem del_result (t : node V) (key : Key) :
    (t.del key).2 = ((t.get key).2, (t.get key).1) := by
  induction t with
  | nil => rfl
  | mk w l r k v ihl ihr =>
    simp only [node.del, node.get]
    split_ifs
    · exact ihl
    · exact ihr
    · rfl

/-- The method `del` stores no pair that was not stored before. -/
theorem mem_del (t : node V) (key : Key) (p : Key × Option V)
    (h : p ∈ (t.del key).1.toList) : p ∈ t.toList := by
  induction t with
  | nil => simpa [node.del] using h
  | mk w l r k v ihl ihr =>
    simp only [node.del] at h
    simp only [node.toList, List.mem_append, List.mem_cons]
    split_ifs at h
    · simp only [node.toList, List.mem_append, List.mem_cons] at h
      rcases h with h | h | h
      · exact Or.inl (ihl h)
      · exact Or.inr (Or.inl h)
      · exact Or.inr (Or.inr h)
    · simp only [node.toList, List.mem_append, List.mem_cons] at h
      rcases h with h | h | h
      · exact Or.inl h
      · exact Or.inr (Or.inl h)
      · exact Or.inr (Or.inr (ihr h))
    · rw [mem_merge] at h
      rcases h with h | h
      · exact Or.inl h
      · exact Or.inr (Or.inr h)

/-- After `del` on a search tree no stored pair has the deleted key. -/
theorem del_key_gone (t : node V) (hb : t.BST) (key : Key) (p : Key × Option V)
    (h : p ∈ (t.del key).1.toList) : p.1 ≠ key := by
  induction t with
  | nil => simp [node.del, node.toList] at h
  | mk w l r k v ihl ihr =>
    obtain ⟨hl, hr, bl, br⟩ := hb
    simp only [node.del, bytesCompare_lt_iff, bytesCompare_gt_iff] at h
    split_ifs at h with h1 h2
    · simp only [node.toList, List.mem_append, List.mem_cons] at h
      rcases h with h | h | h
      · exact ihl bl h
      · rw [h]; exact ne_of_gt h1
      · exact ne_of_gt (lt_trans h1 (hr p h))
    · simp only [node.toList, List.mem_append, List.mem_cons] at h
      rcases h with h | h | h
      · exact ne_of_lt (lt_trans (hl p h) h2)
      · rw [h]; exact ne_of_lt h2
      · exact ihr br h
    · have hk : key = k := le_antisymm (not_lt.mp h2) (not_lt.mp h1)
      rw [mem_merge] at h
      rcases h with h | h
      · rw [hk]; exact ne_of_lt (hl p h)
      · rw [hk]; exact ne_of_gt (hr p h)

theorem Del_eq (self : Treap V) (key : Key) :
    self.Del key =
      (⟨if (self.root.del key).2.1 then self.size - 1 else self.size, (self.root.del key).1⟩,
        (self.root.del key).2.2, (self.root.del key).2.1) := rfl

/-- What `Put` does, in terms of `insert_newNode_spec`. -/
theorem Put_spec (self : Treap V) (w : Int) (key : Key) (value : Option V) :
    ∃ t1 : Treap V,
      self.Put w key value = some (t1, self.Get key) ∧
      t1.size = (if (self.Get key).2 then self.size else self.size + 1) ∧
      self.root.insert (newNode w key value) =
        some (t1.root, (self.Get key).2, (self.Get key).1) ∧
      t1.root ≠ .nil ∧
      t1.Get key = (value, true) ∧
      (∀ p, p ∈ t1.root.toList → p = (key, value) ∨ p ∈ self.root.toList) ∧
      (∀ p, p ∈ self.root.toList → p.1 ≠ key → p ∈ t1.root.toList) := by
  obtain ⟨t1, hins, hne, hget, hsub, hsup⟩ := insert_newNode_spec self.root w key value
  refine ⟨⟨if !(self.root.get key).2 then self.size + 1 else self.size, t1⟩, ?_, ?_, hins, hne,
    hget, hsub, hsup⟩
  · simp [Treap.Put, Treap.Get, hins]
  · simp only [Treap.Get]
    by_cases hx : (self.root.get key).2 = true
    · simp [hx]
    · simp [hx]

theorem run_append (t : Treap V) (xs ys : List (Op V)) :
    t.run (xs ++ ys) = (t.run xs).bind (fun t1 => t1.run ys) := by
  induction xs generalizing t with
  | nil => rfl
  | cons op xs ih =>
    cases op with
    | put w key value =>
      simp only [List.cons_append, Treap.run]
      cases t.Put w key value with
      | none => rfl
      | some r => exact ih r.1
    | del key =>
      simp only [List.cons_append, Treap.run]
      exact ih _

/-- C1: the run `Put("b")`, `Put("d")`, `Put("a")`, `Put("c")`, `Del("b")` with
the drawn weights 0, 1, 2, 3 ends in a treap whose `Get("c")` reports
`(nil, false)` although the reference map holds `"c" -> 3`: `merge` hangs the
key `"c"` to the left of `"a"`. -/
theorem run_disagrees_with_refMap :
    ∃ t : Treap Nat,
      Treap.new.run lettersOps = some t ∧
      t.root = .mk 1 (.mk 2 (.mk 3 .nil .nil [99] (some 3)) .nil [97] (some 1)) .nil
        [100] (some 4) ∧
      t.Get [99] = (none, false) ∧
      refMap lettersOps [99] = some (some 3) := by
  refine ⟨⟨3, .mk 1 (.mk 2 (.mk 3 .nil .nil [99] (some 3)) .nil [97] (some 1)) .nil
    [100] (some 4)⟩, ?_, rfl, by decide, by decide⟩
  have h1 : (Treap.new : Treap Nat).run (lettersOps.take 4) = some letters := by decide
  have h2 : (letters.Del [98]).1 = ⟨3, .mk 1 (.mk 2 (.mk 3 .nil .nil [99] (some 3)) .nil
      [97] (some 1)) .nil [100] (some 4)⟩ := by
    simp [letters, Del_eq, node.del, merge, bytesCompare]
  have h3 : lettersOps = lettersOps.take 4 ++ [.del [98]] := rfl
  rw [h3, run_append, h1]
  simp only [Option.bind, Treap.run, h2]

/-- C2: on a treap whose tree is a search tree, `Up(from, below, visit)` calls
`visit` exactly for the stored pairs with `from <= key < below` in the
lexicographic byte order, an absent bound being no bound: every visitor sees
the calls that `record` logs, the logged pairs are the stored pairs inside the
bounds, and their keys increase strictly (so none is visited twice). -/
theorem Up_visits_range (self : Treap V) (hb : self.root.BST) (frm below : Option Key) :
    (∀ (τ : Type) (f : TreapIterator V τ) (s : τ),
        self.Up frm below f s = replay f (self.Up frm below record []) s) ∧
    (∀ p : Key × Option V, p ∈ self.Up frm below record [] ↔
        p ∈ self.root.toList ∧
          (∀ a, frm = some a → a ≤ p.1) ∧ (∀ b, below = some b → p.1 < b)) ∧
    (self.Up frm below record []).Pairwise (fun p q => p.1 < q.1) := by
  have e : ∀ (τ : Type) (f : TreapIterator V τ) (s : τ),
      self.Up frm below f s = replay f (self.root.toList.filter (upKeep frm below)) s :=
    fun τ f s => up_eq_filter frm below f self.root hb s
  have e0 : self.Up frm below record [] = self.root.toList.filter (upKeep frm below) := by
    rw [e, replay_record, List.nil_append]
  rw [e0]
  refine ⟨e, ?_, (toList_sorted self.root hb).sublist (List.filter_sublist _)⟩
  intro p
  rw [List.mem_filter]
  cases frm <;> cases below <;> simp [upKeep]

/-- C2 at the treap `digits` with the bounds `"5"` and `"8"` of `TestTreapEach`. -/
theorem Up_visits_range_witness :
    digits.root.BST ∧
    ((∀ (τ : Type) (f : TreapIterator Nat τ) (s : τ),
        digits.Up (some [53]) (some [56]) f s =
          replay f (digits.Up (some [53]) (some [56]) record []) s) ∧
    (∀ p : Key × Option Nat, p ∈ digits.Up (some [53]) (some [56]) record [] ↔
        p ∈ digits.root.toList ∧
          (∀ a, some [53] = some a → a ≤ p.1) ∧ (∀ b, some [56] = some b → p.1 < b)) ∧
    (digits.Up (some [53]) (some [56]) record []).Pairwise (fun p q => p.1 < q.1)) :=
  ⟨by decide, Up_visits_range digits (by decide) (some [53]) (some [56])⟩

/-- C3: on a treap whose tree is a search tree, `Down(from, above, visit)` with
both bounds present calls `visit` exactly for the stored pairs with
`above < key <= from` in the lexicographic byte order: every visitor sees the
calls that `record` logs, the logged pairs are the stored pairs inside the
bounds, and their keys decrease strictly; with the keys `"0"` to `"9"` stored,
`Down("6", "3")` visits `"6"`, `"5"`, `"4"` in that order. -/
theorem Down_visits_range (self : Treap V) (hb : self.root.BST) (frm above : Key) :
    (∀ (τ : Type) (f : TreapIterator V τ) (s : τ),
        self.Down (some frm) (some above) f s =
          replay f (self.Down (some frm) (some above) record []) s) ∧
    (∀ p : Key × Option V, p ∈ self.Down (some frm) (some above) record [] ↔
        p ∈ self.root.toList ∧ above < p.1 ∧ p.1 ≤ frm) ∧
    (self.Down (some frm) (some above) record []).Pairwise (fun p q => q.1 < p.1) ∧
    (self.root.toList.map Prod.fst =
        [[48], [49], [50], [51], [52], [53], [54], [55], [56], [57]] →
      (self.Down (some [54]) (some [51]) record []).map Prod.fst = [[54], [53], [52]]) := by
  have e : ∀ (a b : Key) (τ : Type) (f : TreapIterator V τ) (s : τ),
      self.Down (some a) (some b) f s =
        replay f (self.root.toList.reverse.filter (downKeep a b)) s :=
    fun a b τ f s => down_eq_filter a b f self.root hb s
  have e0 : ∀ a b : Key, self.Down (some a) (some b) record [] =
      self.root.toList.reverse.filter (downKeep a b) := by
    intro a b
    rw [e, replay_record, List.nil_append]
  rw [e0, e0]
  refine ⟨e frm above, ?_, ?_, ?_⟩
  · intro p
    rw [List.mem_filter, List.mem_reverse]
    simp [downKeep]
  · refine List.Pairwise.sublist (List.filter_sublist _) ?_
    rw [List.pairwise_reverse]
    exact toList_sorted self.root hb
  · intro hk
    have hf : (downKeep [54] [51] : Key × Option V → Bool) =
        (fun k : Key => decide (([51] : Key) < k) && decide (k ≤ ([54] : Key))) ∘ Prod.fst := rfl
    rw [hf, ← List.filter_map, List.map_reverse, hk]
    decide

/-- C3 at the treap `digits` with the bounds `"6"` and `"3"` of `TestTreapEach`. -/
theorem Down_visits_range_witness :
    digits.root.BST ∧
    ((∀ (τ : Type) (f : TreapIterator Nat τ) (s : τ),
        digits.Down (some [54]) (some [51]) f s =
          replay f (digits.Down (some [54]) (some [51]) record []) s) ∧
    (∀ p : Key × Option Nat, p ∈ digits.Down (some [54]) (some [51]) record [] ↔
        p ∈ digits.root.toList ∧ [51] < p.1 ∧ p.1 ≤ [54]) ∧
    (digits.Down (some [54]) (some [51]) record []).Pairwise (fun p q => q.1 < p.1) ∧
    (digits.root.toList.map Prod.fst =
        [[48], [49], [50], [51], [52], [53], [54], [55], [56], [57]] →
      (digits.Down (some [54]) (some [51]) record []).map Prod.fst = [[54], [53], [52]])) :=
  ⟨by decide, Down_visits_range digits (by decide) [54] [51]⟩

/-- C4: on the treap that holds the single key `"a"`, `Down(nil, nil)`,
`Down(nil, "")` and `Down("a", nil)` call the visitor for no pair, although the
key `"a"` is stored, is above `""` and is not above `"a"`: an absent bound of
`Down` empties the traversal. -/
theorem Down_absent_bound_visits_nothing :
    ∃ t : Treap Nat,
      Treap.new.Put 5 [97] (some 1) = some (t, none, false) ∧
      t.root.BST ∧
      t.root.toList = [([97], some 1)] ∧
      t.Down none none record [] = [] ∧
      t.Down none (some []) record [] = [] ∧
      t.Down (some [97]) none record [] = [] ∧
      t.Up none none record [] = [([97], some 1)] :=
  ⟨⟨1, .mk 5 .nil .nil [97] (some 1)⟩, by decide, by decide, by decide, by decide, by decide,
    by decide, by decide⟩

/-- C5: for every treap, key, value and drawn weight, `Put(k, v)` succeeds and
`Get(k)` on the treap it leaves returns `(v, true)`. -/
theorem Get_after_Put (self : Treap V) (w : Int) (k : Key) (v : Option V) :
    ∃ (t1 : Treap V) (res : Option V × Bool),
      self.Put w k v = some (t1, res) ∧ t1.Get k = (v, true) := by
  obtain ⟨t1, hput, -, -, -, hget, -, -⟩ := Put_spec self w k v
  exact ⟨t1, _, hput, hget⟩

/-- C6: for every treap, key, value and drawn weight, `Put(k, v)` succeeds and
returns what `Get(k)` returned just before; and `Put(k, v1)` followed by
`Put(k, v2)` returns `(v1, true)` on the second call, `Get(k)` then yielding
`v2`. -/
theorem Put_returns_previous (self : Treap V) (w : Int) (k : Key) (v : Option V) :
    (∃ t1 : Treap V, self.Put w k v = some (t1, self.Get k)) ∧
    (∀ (w2 : Int) (v2 : Option V), ∃ (t1 t2 : Treap V) (res : Option V × Bool),
      self.Put w k v = some (t1, res) ∧
      t1.Put w2 k v2 = some (t2, (v, true)) ∧
      t2.Get k = (v2, true)) := by
  obtain ⟨t1, hput, -, -, -, hget, -, -⟩ := Put_spec self w k v
  refine ⟨⟨t1, hput⟩, ?_⟩
  intro w2 v2
  obtain ⟨t2, hput2, -, -, -, hget2, -, -⟩ := Put_spec t1 w2 k v2
  refine ⟨t1, t2, _, hput, ?_, hget2⟩
  rw [hput2, hget]

/-- C7: on a treap whose tree is a search tree, `Put(k, v)` succeeds and, for
every key other than `k`, `Get` returns afterwards what it returned before. -/
theorem Put_keeps_other_keys (self : Treap V) (hb : self.root.BST) (w : Int) (k : Key)
    (v : Option V) :
    ∃ (t1 : Treap V) (res : Option V × Bool),
      self.Put w k v = some (t1, res) ∧ ∀ k1 : Key, k1 ≠ k → t1.Get k1 = self.Get k1 := by
  obtain ⟨t1, hput, -, hins, -, -, hsub, hsup⟩ := Put_spec self w k v
  refine ⟨t1, _, hput, ?_⟩
  intro k1 hk
  have hb1 : t1.root.BST := insert_BST self.root hb w k v _ _ _ hins
  rcases get_cases self.root k1 with h | ⟨x, h⟩
  · have hno : ∀ p ∈ self.root.toList, p.1 ≠ k1 := by
      intro p hp hpk
      have := get_of_mem self.root hb p.1 p.2 hp
      rw [hpk, h] at this
      simp at this
    have hno1 : ∀ p ∈ t1.root.toList, p.1 ≠ k1 := by
      intro p hp
      rcases hsub p hp with h1 | h1
      · rw [h1]; exact fun h2 => hk h2.symm
      · exact hno p h1
    simp only [Treap.Get]
    rw [h, get_of_not_mem t1.root k1 hno1]
  · have hm := get_found_mem self.root k1 x h
    have hm1 := hsup _ hm hk
    simp only [Treap.Get]
    rw [h, get_of_mem t1.root hb1 k1 x hm1]

/-- C7 at the treap `letters` with a `Put` of the stored key `"c"`. -/
theorem Put_keeps_other_keys_witness :
    letters.root.BST ∧
    ∃ (t1 : Treap Nat) (res : Option Nat × Bool),
      letters.Put 7 [99] (some 9) = some (t1, res) ∧
        ∀ k1 : Key, k1 ≠ [99] → t1.Get k1 = letters.Get k1 :=
  ⟨by decide, Put_keeps_other_keys letters (by decide) 7 [99] (some 9)⟩

/-- C8: on a treap whose tree is a search tree, `Get(k)` returns `(v, true)`
exactly when the pair `(k, v)` is stored, the stored pairs being those the
unbounded `Up(nil, nil, visit)` visits, and returns `(nil, false)` exactly when
no stored pair has the key `k`. -/
theorem Get_iff_stored (self : Treap V) (hb : self.root.BST) (k : Key) :
    (∀ v : Option V, self.Get k = (v, true) ↔ (k, v) ∈ self.root.toList) ∧
    self.Up none none record [] = self.root.toList ∧
    (∀ v : Option V, self.Get k = (v, true) ↔ (k, v) ∈ self.Up none none record []) ∧
    (self.Get k = (none, false) ↔ ∀ p ∈ self.root.toList, p.1 ≠ k) := by
  have h1 : ∀ v : Option V, self.Get k = (v, true) ↔ (k, v) ∈ self.root.toList :=
    fun v => ⟨get_found_mem self.root k v, get_of_mem self.root hb k v⟩
  have h2 : self.Up none none record [] = self.root.toList := by
    have := up_eq_filter none none record self.root hb []
    rw [replay_record, List.nil_append] at this
    rw [Treap.Up, this]
    simp [upKeep]
  refine ⟨h1, h2, ?_, ?_, get_of_not_mem self.root k⟩
  · rw [h2]; exact h1
  · intro h p hp hpk
    have := get_of_mem self.root hb p.1 p.2 hp
    rw [hpk] at this
    simp only [Treap.Get] at h
    rw [h] at this
    simp at this

/-- C8 at the treap `letters` and the key `"c"`. -/
theorem Get_iff_stored_witness :
    letters.root.BST ∧
    ((∀ v : Option Nat, letters.Get [99] = (v, true) ↔ ([99], v) ∈ letters.root.toList) ∧
    letters.Up none none record [] = letters.root.toList ∧
    (∀ v : Option Nat, letters.Get [99] = (v, true) ↔
      ([99], v) ∈ letters.Up none none record []) ∧
    (letters.Get [99] = (none, false) ↔ ∀ p ∈ letters.root.toList, p.1 ≠ [99])) :=
  ⟨by decide, Get_iff_stored letters (by decide) [99]⟩

/-- C9: on a treap whose tree is a search tree, `Put(k, v)` succeeds; after the
`Del(k)` that follows, `Get(k)` returns `(nil, false)` and `Size()` is one less
than right after the `Put`; a second `Del(k)` returns `(nil, false)` and leaves
`Size()` as it is. -/
theorem Del_after_Put (self : Treap V) (hb : self.root.BST) (w : Int) (k : Key)
    (v : Option V) :
    ∃ (t1 : Treap V) (res : Option V × Bool),
      self.Put w k v = some (t1, res) ∧
      (t1.Del k).1.Get k = (none, false) ∧
      (t1.Del k).1.Size = t1.Size - 1 ∧
      ((t1.Del k).1.Del k).2 = (none, false) ∧
      ((t1.Del k).1.Del k).1.Size = (t1.Del k).1.Size := by
  obtain ⟨t1, hput, -, hins, -, hget, -, -⟩ := Put_spec self w k v
  have hb1 : t1.root.BST := insert_BST self.root hb w k v _ _ _ hins
  simp only [Treap.Get] at hget
  have hres := del_result t1.root k
  rw [hget] at hres
  have hgone : (t1.root.del k).1.get k = (none, false) :=
    get_of_not_mem _ k (fun p hp => del_key_gone t1.root hb1 k p hp)
  have hres2 := del_result (t1.root.del k).1 k
  rw [hgone] at hres2
  refine ⟨t1, _, hput, ?_, ?_, ?_, ?_⟩
  · simpa [Del_eq, Treap.Get] using hgone
  · simp [Del_eq, Treap.Size, hres]
  · simp [Del_eq, hres2]
  · simp [Del_eq, Treap.Size, hres2]

/-- C9 at the treap `letters` with a `Put` of the new key `"e"`. -/
theorem Del_after_Put_witness :
    letters.root.BST ∧
    ∃ (t1 : Treap Nat) (res : Option Nat × Bool),
      letters.Put 7 [101] (some 5) = some (t1, res) ∧
      (t1.Del [101]).1.Get [101] = (none, false) ∧
      (t1.Del [101]).1.Size = t1.Size - 1 ∧
      ((t1.Del [101]).1.Del [101]).2 = (none, false) ∧
      ((t1.Del [101]).1.Del [101]).1.Size = (t1.Del [101]).1.Size :=
  ⟨by decide, Del_after_Put letters (by decide) 7 [101] (some 5)⟩

/-- C10: for every treap and key, `Del(k)` returns what `Get(k)` returned just
before: the stored value and `true` when the key was found, `(nil, false)` when
it was not. -/
theorem Del_returns_previous (self : Treap V) (k : Key) :
    (self.Del k).2 = self.Get k ∧
    (self.Get k = (none, false) ∨ ∃ v : Option V, self.Get k = (v, true)) := by
  refine ⟨?_, get_cases self.root k⟩
  rw [Del_eq, Treap.Get]
  have := del_result self.root k
  rw [Prod.ext_iff] at this
  exact Prod.ext this.2 this.1

/-- With the lower bound above the upper bound `up` calls the iterator for no pair. -/
theorem up_crossed_bounds (a b : Key) (h : b < a) (f : TreapIterator V σ) (t : node V)
    (s : σ) : t.up (some a) (some b) f s = s := by
  induction t generalizing s with
  | nil => rfl
  | mk w l r k v ihl ihr =>
    have hv : ¬ (a ≤ k ∧ k < b) := fun hh => absurd (lt_of_le_of_lt hh.1 hh.2) (not_lt_of_lt h)
    simp only [node.up, bytesCompare_neg_iff, bytesCompare_lt_one_iff, bytesCompare_pos_iff,
      gt_iff_lt, ihl, ihr, hv, ite_self, if_false]

/-- With the lower bound above the upper bound `down` calls the iterator for no pair. -/
theorem down_crossed_bounds (a b : Key) (h : a < b) (f : TreapIterator V σ) (t : node V)
    (s : σ) : t.down (some a) (some b) f s = s := by
  induction t generalizing s with
  | nil => rfl
  | mk w l r k v ihl ihr =>
    have hv : ¬ (k ≤ a ∧ b < k) := fun hh => absurd (lt_of_lt_of_le hh.2 hh.1) (not_lt_of_lt h)
    simp only [node.down, bytesCompare_neg_iff, bytesCompare_gt_neg_one_iff,
      bytesCompare_pos_iff, gt_iff_lt, ihl, ihr, hv, ite_self, if_false]

/-- Where `get` finds nothing `del` returns the tree as it was. -/
theorem del_absent (t : node V) (key : Key) (h : t.get key = (none, false)) :
    t.del key = (t, false, none) := by
  induction t with
  | nil => rfl
  | mk w l r k v ihl ihr =>
    simp only [node.get] at h
    simp only [node.del]
    split_ifs at h ⊢ with h1 h2
    · rw [ihl h]
    · rw [ihr h]
    · simp at h

/-- Without bounds `up` calls the iterator for every stored pair, left to right. -/
theorem up_unbounded (f : TreapIterator V σ) (t : node V) (s : σ) :
    t.up none none f s = replay f t.toList s := by
  induction t generalizing s with
  | nil => rfl
  | mk w l r k v ihl ihr =>
    simp [node.up, node.toList, replay_append, replay_cons, ihl, ihr]

theorem toList_length (t : node V) : t.toList.length = t.count := by
  induction t with
  | nil => rfl
  | mk w l r k v ihl ihr => simp [node.toList, node.count, ihl, ihr]; omega

theorem replay_tally (xs : List (Key × Option V)) (n : Nat) :
    replay tally xs n = n + xs.length := by
  induction xs generalizing n with
  | nil => rfl
  | cons p xs ih => rw [replay_cons, ih]; simp [tally]; omega

theorem toList_eq_entries (t : node V) :
    t.toList = t.entries.map (fun e => (e.1, e.2.1)) := by
  induction t with
  | nil => rfl
  | mk w l r k v ihl ihr => simp [node.toList, node.entries, ihl, ihr]

/-- Induction along `insert` of a fresh node: a relation between the tree
before, the tree returned and the two flags holds for every call once it holds
for the empty tree, passes from a child to its parent with and without the
rotation, and holds at a node with the key. The call always returns. -/
theorem insert_induction (w : Int) (key : Key) (value : Option V)
    (P : node V → node V → Bool → Option V → Prop)
    (hnil : P .nil (newNode w key value) false none)
    (hlt_rot : ∀ (tw : Int) (l r : node V) (k : Key) (v : Option V) (lw : Int)
      (ll lr : node V) (lk : Key) (lv : Option V) (e : Bool) (o : Option V),
      key < k → l.insert (newNode w key value) = some (.mk lw ll lr lk lv, e, o) →
      P l (.mk lw ll lr lk lv) e o → lw < tw →
      P (.mk tw l r k v) (.mk lw ll (.mk tw lr r k v) lk lv) e o)
    (hlt : ∀ (tw : Int) (l r : node V) (k : Key) (v : Option V) (lw : Int)
      (ll lr : node V) (lk : Key) (lv : Option V) (e : Bool) (o : Option V),
      key < k → l.insert (newNode w key value) = some (.mk lw ll lr lk lv, e, o) →
      P l (.mk lw ll lr lk lv) e o → ¬ lw < tw →
      P (.mk tw l r k v) (.mk tw (.mk lw ll lr lk lv) r k v) e o)
    (hgt_rot : ∀ (tw : Int) (l r : node V) (k : Key) (v : Option V) (rw : Int)
      (rl rr : node V) (rk : Key) (rv : Option V) (e : Bool) (o : Option V),
      k < key → r.insert (newNode w key value) = some (.mk rw rl rr rk rv, e, o) →
      P r (.mk rw rl rr rk rv) e o → rw < tw →
      P (.mk tw l r k v) (.mk rw (.mk tw l rl k v) rr rk rv) e o)
    (hgt : ∀ (tw : Int) (l r : node V) (k : Key) (v : Option V) (rw : Int)
      (rl rr : node V) (rk : Key) (rv : Option V) (e : Bool) (o : Option V),
      k < key → r.insert (newNode w key value) = some (.mk rw rl rr rk rv, e, o) →
      P r (.mk rw rl rr rk rv) e o → ¬ rw < tw →
      P (.mk tw l r k v) (.mk tw l (.mk rw rl rr rk rv) k v) e o)
    (heq : ∀ (tw : Int) (l r : node V) (v : Option V),
      P (.mk tw l r key v) (.mk tw l r key value) true v)
    (t : node V) :
    ∃ (t1 : node V) (e : Bool) (o : Option V),
      t.insert (newNode w key value) = some (t1, e, o) ∧ t1 ≠ .nil ∧ P t t1 e o := by
  induction t with
  | nil => exact ⟨_, _, _, insert_nil _, by simp [newNode], hnil⟩
  | mk tw l r k v ihl ihr =>
    by_cases hc : bytesCompare key k = -1
    · obtain ⟨l1, e, o, hins, hne, hp⟩ := ihl
      cases l1 with
      | nil => exact absurd rfl hne
      | mk lw ll lr lk lv =>
        have hk : key < k := (bytesCompare_lt_iff _ _).mp hc
        have hstep := insert_lt_step (w := tw) (r := r) (v := v) hc
          (by rw [newNode] at hins; exact hins)
        by_cases hw : lw < tw
        · refine ⟨_, e, o, ?_, by simp, hlt_rot tw l r k v lw ll lr lk lv e o hk hins hp hw⟩
          rw [newNode, hstep, if_pos hw]
        · refine ⟨_, e, o, ?_, by simp, hlt tw l r k v lw ll lr lk lv e o hk hins hp hw⟩
          rw [newNode, hstep, if_neg hw]
    · by_cases hc2 : bytesCompare key k = 1
      · obtain ⟨r1, e, o, hins, hne, hp⟩ := ihr
        cases r1 with
        | nil => exact absurd rfl hne
        | mk rw rl rr rk rv =>
          have hk : k < key := (bytesCompare_gt_iff _ _).mp hc2
          have hstep := insert_gt_step (w := tw) (l := l) (v := v) hc2
            (by rw [newNode] at hins; exact hins)
          by_cases hw : rw < tw
          · refine ⟨_, e, o, ?_, by simp, hgt_rot tw l r k v rw rl rr rk rv e o hk hins hp hw⟩
            rw [newNode, hstep, if_pos hw]
          · refine ⟨_, e, o, ?_, by simp, hgt tw l r k v rw rl rr rk rv e o hk hins hp hw⟩
            rw [newNode, hstep, if_neg hw]
      · have hk : key = k := by
          rw [bytesCompare_lt_iff] at hc
          rw [bytesCompare_gt_iff] at hc2
          exact le_antisymm (not_lt.mp hc2) (not_lt.mp hc)
        subst hk
        refine ⟨_, true, v, ?_, by simp, heq tw l r v⟩
        rw [newNode, insert_eq_step hc hc2]

/-- The `get` of a key below the node's key is the `get` in the left subtree. -/
theorem get_lt {key k : Key} (h : key < k) (w : Int) (l r : node V) (v : Option V) :
    (node.mk w l r k v).get key = l.get key := by
  simp [node.get, (bytesCompare_lt_iff key k).mpr h]

/-- The `get` of a key above the node's key is the `get` in the right subtree. -/
theorem get_gt {key k : Key} (h : k < key) (w : Int) (l r : node V) (v : Option V) :
    (node.mk w l r k v).get key = r.get key := by
  have h1 : ¬ bytesCompare key k = -1 := by
    rw [bytesCompare_lt_iff]; exact not_lt_of_lt h
  simp [node.get, h1, (bytesCompare_gt_iff key k).mpr h]

/-- The `get` of the node's own key finds the node. -/
theorem get_self (w : Int) (l r : node V) (k : Key) (v : Option V) :
    (node.mk w l r k v).get k = (v, true) := by
  have h1 : ¬ bytesCompare k k = -1 := by
    rw [bytesCompare_lt_iff]; exact lt_irrefl k
  have h2 : ¬ bytesCompare k k = 1 := by
    rw [bytesCompare_gt_iff]; exact lt_irrefl k
  simp [node.get, h1, h2]

/-- A child whose entries all weigh at least `m` has a root that does. -/
theorem weightLE_of_entries (m : Int) (c : node V) (h : ∀ e ∈ c.entries, m ≤ e.2.2) :
    c.weightLE m := by
  cases c with
  | nil => trivial
  | mk cw cl cr ck cv => exact h (ck, cv, cw) (by simp [node.entries])

/-- In a heap-ordered tree no entry weighs less than a bound the root respects. -/
theorem Heap_entries_ge (t : node V) (h : t.Heap) (m : Int) (hm : t.weightLE m) :
    ∀ e ∈ t.entries, m ≤ e.2.2 := by
  induction t generalizing m with
  | nil => intro e he; simp [node.entries] at he
  | mk w l r k v ihl ihr =>
    obtain ⟨hl, hr, hhl, hhr⟩ := h
    have hmw : m ≤ w := hm
    intro e he
    simp only [node.entries, List.mem_append, List.mem_cons] at he
    rcases he with he | he | he
    · exact le_trans hmw (ihl hhl w hl e he)
    · rw [he]; exact hmw
    · exact le_trans hmw (ihr hhr w hr e he)

/-- The method `insert` keeps the heap property, and below the returned root no
entry weighs less than a lower bound of the old weights. -/
theorem insert_Heap (w : Int) (key : Key) (value : Option V) (t : node V) :
    ∃ (t1 : node V) (e : Bool) (o : Option V),
      t.insert (newNode w key value) = some (t1, e, o) ∧ t1 ≠ .nil ∧
      (t.Heap → t1.Heap ∧ ∀ m : Int, (∀ x ∈ t.entries, m ≤ x.2.2) →
        ∀ (tw : Int) (tl tr : node V) (tk : Key) (tv : Option V), t1 = .mk tw tl tr tk tv →
          ∀ x ∈ tl.entries ++ tr.entries, m ≤ x.2.2) := by
  refine insert_induction w key value
    (fun t t1 _ _ => t.Heap → t1.Heap ∧ ∀ m : Int, (∀ x ∈ t.entries, m ≤ x.2.2) →
        ∀ (tw : Int) (tl tr : node V) (tk : Key) (tv : Option V), t1 = .mk tw tl tr tk tv →
          ∀ x ∈ tl.entries ++ tr.entries, m ≤ x.2.2) ?_ ?_ ?_ ?_ ?_ ?_ t
  · intro _
    refine ⟨by simp [newNode, node.Heap, node.weightLE], ?_⟩
    intro m _ tw tl tr tk tv h
    simp only [newNode, node.mk.injEq] at h
    obtain ⟨-, h1, h2, -, -⟩ := h
    subst h1; subst h2
    simp [node.entries]
  · intro tw l r k v lw ll lr lk lv e o _ _ ih hw hh
    obtain ⟨hl, hr, hhl, hhr⟩ := hh
    obtain ⟨⟨hll, hlr, hhll, hhlr⟩, hch⟩ := ih hhl
    have hge := hch tw (Heap_entries_ge l hhl tw hl) lw ll lr lk lv rfl
    have hlr_w : lr.weightLE tw :=
      weightLE_of_entries tw lr (fun x hx => hge x (List.mem_append_right _ hx))
    refine ⟨⟨hll, le_of_lt hw, hhll, hlr_w, hr, hhlr, hhr⟩, ?_⟩
    intro m hm _ _ _ _ _ h
    simp only [node.mk.injEq] at h
    obtain ⟨-, h1, h2, -, -⟩ := h
    subst h1; subst h2
    have hmw : m ≤ tw := hm (k, v, tw) (by simp [node.entries])
    intro x hx
    simp only [node.entries, List.mem_append, List.mem_cons] at hx
    rcases hx with hx | hx | hx | hx
    · exact le_trans hmw (hge x (List.mem_append_left _ hx))
    · exact le_trans hmw (hge x (List.mem_append_right _ hx))
    · rw [hx]; exact hmw
    · exact hm x (by simp [node.entries, hx])
  · intro tw l r k v lw ll lr lk lv e o _ _ ih hw hh
    obtain ⟨hl, hr, hhl, hhr⟩ := hh
    obtain ⟨hh1, -⟩ := ih hhl
    have hheap : (node.mk tw (.mk lw ll lr lk lv) r k v).Heap :=
      ⟨not_lt.mp hw, hr, hh1, hhr⟩
    refine ⟨hheap, ?_⟩
    intro m hm _ _ _ _ _ h
    simp only [node.mk.injEq] at h
    obtain ⟨-, h1, h2, -, -⟩ := h
    subst h1; subst h2
    have hmw : m ≤ tw := hm (k, v, tw) (by simp [node.entries])
    have hall := Heap_entries_ge _ hheap tw (le_refl tw)
    intro x hx
    refine le_trans hmw (hall x ?_)
    simp only [node.entries, List.mem_append, List.mem_cons] at hx ⊢
    tauto
  · intro tw l r k v rw rl rr rk rv e o _ _ ih hw hh
    obtain ⟨hl, hr, hhl, hhr⟩ := hh
    obtain ⟨⟨hrl, hrr, hhrl, hhrr⟩, hch⟩ := ih hhr
    have hge := hch tw (Heap_entries_ge r hhr tw hr) rw rl rr rk rv rfl
    have hrl_w : rl.weightLE tw :=
      weightLE_of_entries tw rl (fun x hx => hge x (List.mem_append_left _ hx))
    refine ⟨⟨le_of_lt hw, hrr, ⟨hl, hrl_w, hhl, hhrl⟩, hhrr⟩, ?_⟩
    intro m hm _ _ _ _ _ h
    simp only [node.mk.injEq] at h
    obtain ⟨-, h1, h2, -, -⟩ := h
    subst h1; subst h2
    have hmw : m ≤ tw := hm (k, v, tw) (by simp [node.entries])
    intro x hx
    simp only [node.entries, List.mem_append, List.mem_cons] at hx
    rcases hx with (hx | hx | hx) | hx
    · exact hm x (by simp [node.entries, hx])
    · rw [hx]; exact hmw
    · exact le_trans hmw (hge x (List.mem_append_left _ hx))
    · exact le_trans hmw (hge x (List.mem_append_right _ hx))
  · intro tw l r k v rw rl rr rk rv e o _ _ ih hw hh
    obtain ⟨hl, hr, hhl, hhr⟩ := hh
    obtain ⟨hh1, -⟩ := ih hhr
    have hheap : (node.mk tw l (.mk rw rl rr rk rv) k v).Heap :=
      ⟨hl, not_lt.mp hw, hhl, hh1⟩
    refine ⟨hheap, ?_⟩
    intro m hm _ _ _ _ _ h
    simp only [node.mk.injEq] at h
    obtain ⟨-, h1, h2, -, -⟩ := h
    subst h1; subst h2
    have hmw : m ≤ tw := hm (k, v, tw) (by simp [node.entries])
    have hall := Heap_entries_ge _ hheap tw (le_refl tw)
    intro x hx
    refine le_trans hmw (hall x ?_)
    simp only [node.entries, List.mem_append, List.mem_cons] at hx ⊢
    tauto
  · intro tw l r v hh
    obtain ⟨hl, hr, hhl, hhr⟩ := hh
    refine ⟨⟨hl, hr, hhl, hhr⟩, ?_⟩
    intro m hm _ _ _ _ _ h
    simp only [node.mk.injEq] at h
    obtain ⟨-, h1, h2, -, -⟩ := h
    subst h1; subst h2
    intro x hx
    refine hm x ?_
    simp only [node.entries, List.mem_append, List.mem_cons] at hx ⊢
    tauto

/-- The entries of `merge` are those of its arguments, rearranged. -/
theorem entries_merge (l r : node V) :
    (merge l r).entries.Perm (l.entries ++ r.entries) := by
  induction l, r using merge.induct with
  | case1 r => simp [merge, node.entries]
  | case2 lw ll lr lk lv => simp [merge, node.entries]
  | case3 lw ll lr lk lv rw rl rr rk rv h ih =>
    rw [merge, if_pos h]
    simp only [node.entries, List.append_assoc, List.cons_append] at ih ⊢
    exact List.Perm.append_left _ (List.Perm.cons _ ih)
  | case4 lw ll lr lk lv rw rl rr rk rv h ih =>
    rw [merge, if_neg h]
    have e : ((merge rl (.mk lw ll lr lk lv)).entries ++ (rk, rv, rw) :: rr.entries).Perm
        ((node.mk lw ll lr lk lv).entries ++ (rl.entries ++ (rk, rv, rw) :: rr.entries)) := by
      refine (List.Perm.append_right _ ih).trans ?_
      rw [List.append_assoc]
      exact List.perm_append_comm_assoc _ _ _
    exact e

theorem entries_length (t : node V) : t.entries.length = t.count := by
  induction t with
  | nil => rfl
  | mk w l r k v ihl ihr => simp [node.entries, node.count, ihl, ihr]; omega

/-- The function `merge` keeps every node of its two arguments. -/
theorem count_merge (l r : node V) : (merge l r).count = l.count + r.count := by
  rw [← entries_length, ← entries_length, ← entries_length, (entries_merge l r).length_eq,
    List.length_append]

/-- The root of `merge` is the root of one of its arguments. -/
theorem merge_weightLE (m : Int) (l r : node V) (hl : l.weightLE m) (hr : r.weightLE m) :
    (merge l r).weightLE m := by
  cases l with
  | nil => rw [merge]; exact hr
  | mk lw ll lr lk lv =>
    cases r with
    | nil => rw [merge]; exact hl
    | mk rw rl rr rk rv =>
      rw [merge]
      split_ifs
      · exact hl
      · exact hr

/-- The function `merge` keeps the heap property. -/
theorem merge_Heap (l r : node V) (hl : l.Heap) (hr : r.Heap) : (merge l r).Heap := by
  induction l, r using merge.induct with
  | case1 r => rw [merge]; exact hr
  | case2 lw ll lr lk lv => rw [merge]; exact hl
  | case3 lw ll lr lk lv rw rl rr rk rv h ih =>
    rw [merge, if_pos h]
    obtain ⟨h1, h2, h3, h4⟩ := hl
    exact ⟨h1, merge_weightLE lw lr _ h2 (le_of_lt h), h3, ih h4 hr⟩
  | case4 lw ll lr lk lv rw rl rr rk rv h ih =>
    rw [merge, if_neg h]
    obtain ⟨h1, h2, h3, h4⟩ := hr
    exact ⟨merge_weightLE rw rl _ h1 (not_lt.mp h), h2, ih h3 hl, h4⟩

/-- The method `del` removes one node when it reports `existed` and none otherwise. -/
theorem count_del (t : node V) (key : Key) :
    (t.del key).1.count + (if (t.del key).2.1 then 1 else 0) = t.count := by
  induction t with
  | nil => rfl
  | mk w l r k v ihl ihr =>
    simp only [node.del]
    split_ifs with h1 h2 h3 h4 h5
    all_goals simp only [node.count, count_merge] at *
    all_goals first | omega | simp_all
    all_goals omega

/-- Every entry after `del` was an entry before. -/
theorem mem_entries_del (t : node V) (key : Key) (x : Key × Option V × Int)
    (h : x ∈ (t.del key).1.entries) : x ∈ t.entries := by
  induction t with
  | nil => simpa [node.del] using h
  | mk w l r k v ihl ihr =>
    simp only [node.del] at h
    simp only [node.entries, List.mem_append, List.mem_cons]
    split_ifs at h
    · simp only [node.entries, List.mem_append, List.mem_cons] at h
      rcases h with h | h | h
      · exact Or.inl (ihl h)
      · exact Or.inr (Or.inl h)
      · exact Or.inr (Or.inr h)
    · simp only [node.entries, List.mem_append, List.mem_cons] at h
      rcases h with h | h | h
      · exact Or.inl h
      · exact Or.inr (Or.inl h)
      · exact Or.inr (Or.inr (ihr h))
    · rw [(entries_merge l r).mem_iff, List.mem_append] at h
      rcases h with h | h
      · exact Or.inl h
      · exact Or.inr (Or.inr h)

/-- The method `del` keeps the heap property. -/
theorem del_Heap (t : node V) (h : t.Heap) (key : Key) : (t.del key).1.Heap := by
  induction t with
  | nil => exact h
  | mk w l r k v ihl ihr =>
    obtain ⟨hl, hr, hhl, hhr⟩ := h
    simp only [node.del]
    split_ifs
    · refine ⟨?_, hr, ihl hhl, hhr⟩
      exact weightLE_of_entries w _
        (fun x hx => Heap_entries_ge l hhl w hl x (mem_entries_del l key x hx))
    · refine ⟨hl, ?_, hhl, ihr hhr⟩
      exact weightLE_of_entries w _
        (fun x hx => Heap_entries_ge r hhr w hr x (mem_entries_del r key x hx))
    · exact merge_Heap l r hhl hhr

/-- A left rotation keeps the entries in their order. -/
theorem entries_rotated_left (w lw : Int) (ll lr r : node V) (k lk : Key) (v lv : Option V) :
    (node.mk lw ll (.mk w lr r k v) lk lv).entries =
      (node.mk w (.mk lw ll lr lk lv) r k v).entries := by
  simp [node.entries]

/-- A right rotation keeps the entries in their order. -/
theorem entries_rotated_right (w rw : Int) (l rl rr : node V) (k rk : Key) (v rv : Option V) :
    (node.mk rw (.mk w l rl k v) rr rk rv).entries =
      (node.mk w l (.mk rw rl rr rk rv) k v).entries := by
  simp [node.entries]

/-- The method `insert` adds one node when it reports no previous value, the
entries then being the old ones and the new one, and adds none otherwise. -/
theorem insert_entries (w : Int) (key : Key) (value : Option V) (t : node V) :
    ∃ (t1 : node V) (e : Bool) (o : Option V),
      t.insert (newNode w key value) = some (t1, e, o) ∧ t1 ≠ .nil ∧
      (t1.count = t.count + (if e then 0 else 1) ∧
        (e = false → t1.entries.Perm ((key, value, w) :: t.entries))) := by
  refine insert_induction w key value
    (fun t t1 e _ => t1.count = t.count + (if e then 0 else 1) ∧
        (e = false → t1.entries.Perm ((key, value, w) :: t.entries))) ?_ ?_ ?_ ?_ ?_ ?_ t
  · exact ⟨by simp [newNode, node.count], fun _ => by simp [newNode, node.entries]⟩
  · intro tw l r k v lw ll lr lk lv e o _ _ ih _
    refine ⟨?_, fun he => ?_⟩
    · have := ih.1
      simp only [node.count] at this ⊢
      omega
    · rw [entries_rotated_left]
      have := (ih.2 he).append_right ((k, v, tw) :: r.entries)
      simpa [node.entries] using this
  · intro tw l r k v lw ll lr lk lv e o _ _ ih _
    refine ⟨?_, fun he => ?_⟩
    · have := ih.1
      simp only [node.count] at this ⊢
      omega
    · have := (ih.2 he).append_right ((k, v, tw) :: r.entries)
      simpa [node.entries] using this
  · intro tw l r k v rw rl rr rk rv e o _ _ ih _
    refine ⟨?_, fun he => ?_⟩
    · have := ih.1
      simp only [node.count] at this ⊢
      omega
    · rw [entries_rotated_right]
      have h1 : (node.mk tw l (.mk rw rl rr rk rv) k v).entries.Perm
          (l.entries ++ (k, v, tw) :: (key, value, w) :: r.entries) :=
        List.Perm.append_left _ (List.Perm.cons _ (ih.2 he))
      refine h1.trans ?_
      have h2 := @List.perm_middle _ (key, value, w) (l.entries ++ [(k, v, tw)]) r.entries
      simpa [node.entries] using h2
  · intro tw l r k v rw rl rr rk rv e o _ _ ih _
    refine ⟨?_, fun he => ?_⟩
    · have := ih.1
      simp only [node.count] at this ⊢
      omega
    · have h1 : (node.mk tw l (.mk rw rl rr rk rv) k v).entries.Perm
          (l.entries ++ (k, v, tw) :: (key, value, w) :: r.entries) :=
        List.Perm.append_left _ (List.Perm.cons _ (ih.2 he))
      refine h1.trans ?_
      have h2 := @List.perm_middle _ (key, value, w) (l.entries ++ [(k, v, tw)]) r.entries
      simpa [node.entries] using h2
  · intro tw l r v
    exact ⟨by simp [node.count], fun he => by simp at he⟩

/-- On a heap-ordered tree `insert` of a key that `get` finds keeps every node
in its place with its weight and key, and changes the value of the node that
`get` reaches and of no other. -/
theorem insert_existing (w : Int) (key : Key) (value : Option V) (t : node V) :
    ∃ (t1 : node V) (e : Bool) (o : Option V),
      t.insert (newNode w key value) = some (t1, e, o) ∧ t1 ≠ .nil ∧
      (t.Heap → ∀ x : Option V, t.get key = (x, true) →
        t1.weight? = t.weight? ∧
        ∃ pth : List Bool, t.pathTo key = some pth ∧
          t.nodeAt pth = (t.nodeAt pth).map (fun n => (n.1, key, x)) ∧
          (t.nodeAt pth).isSome ∧
          ∀ q : List Bool, t1.nodeAt q =
            if q = pth then (t.nodeAt q).map (fun n => (n.1, n.2.1, value))
            else t.nodeAt q) := by
  refine insert_induction w key value
    (fun t t1 _ _ => t.Heap → ∀ x : Option V, t.get key = (x, true) →
        t1.weight? = t.weight? ∧
        ∃ pth : List Bool, t.pathTo key = some pth ∧
          t.nodeAt pth = (t.nodeAt pth).map (fun n => (n.1, key, x)) ∧
          (t.nodeAt pth).isSome ∧
          ∀ q : List Bool, t1.nodeAt q =
            if q = pth then (t.nodeAt q).map (fun n => (n.1, n.2.1, value))
            else t.nodeAt q) ?_ ?_ ?_ ?_ ?_ ?_ t
  · intro _ x hx
    simp [node.get] at hx
  · intro tw l r k v lw ll lr lk lv e o hk _ ih hw hh x hx
    obtain ⟨hl, -, hhl, -⟩ := hh
    rw [get_lt hk] at hx
    obtain ⟨hwe, -⟩ := ih hhl x hx
    cases l with
    | nil => simp [node.weight?] at hwe
    | mk cw cl cr ck cv =>
      simp only [node.weight?, Option.some.injEq] at hwe
      have : tw ≤ cw := hl
      omega
  · intro tw l r k v lw ll lr lk lv e o hk _ ih _ hh x hx
    obtain ⟨-, -, hhl, -⟩ := hh
    rw [get_lt hk] at hx
    obtain ⟨-, pl, hpl, hat, hsome, hq⟩ := ih hhl x hx
    refine ⟨rfl, false :: pl, ?_, ?_, ?_, ?_⟩
    · simp [node.pathTo, (bytesCompare_lt_iff key k).mpr hk, hpl]
    · simpa [node.nodeAt] using hat
    · simpa [node.nodeAt] using hsome
    · intro q
      cases q with
      | nil => simp [node.nodeAt]
      | cons b q =>
        cases b with
        | false => simpa [node.nodeAt] using hq q
        | true => simp [node.nodeAt]
  · intro tw l r k v rw rl rr rk rv e o hk _ ih hw hh x hx
    obtain ⟨-, hr, -, hhr⟩ := hh
    rw [get_gt hk] at hx
    obtain ⟨hwe, -⟩ := ih hhr x hx
    cases r with
    | nil => simp [node.weight?] at hwe
    | mk cw cl cr ck cv =>
      simp only [node.weight?, Option.some.injEq] at hwe
      have : tw ≤ cw := hr
      omega
  · intro tw l r k v rw rl rr rk rv e o hk _ ih _ hh x hx
    obtain ⟨-, -, -, hhr⟩ := hh
    rw [get_gt hk] at hx
    obtain ⟨-, pr, hpr, hat, hsome, hq⟩ := ih hhr x hx
    have h1 : ¬ bytesCompare key k = -1 := by
      rw [bytesCompare_lt_iff]; exact not_lt_of_lt hk
    refine ⟨rfl, true :: pr, ?_, ?_, ?_, ?_⟩
    · simp [node.pathTo, h1, (bytesCompare_gt_iff key k).mpr hk, hpr]
    · simpa [node.nodeAt] using hat
    · simpa [node.nodeAt] using hsome
    · intro q
      cases q with
      | nil => simp [node.nodeAt]
      | cons b q =>
        cases b with
        | false => simp [node.nodeAt]
        | true => simpa [node.nodeAt] using hq q
  · intro tw l r v _ x hx
    rw [get_self] at hx
    simp only [Prod.mk.injEq, and_true] at hx
    have h1 : ¬ bytesCompare key key = -1 := by
      rw [bytesCompare_lt_iff]; exact lt_irrefl key
    have h2 : ¬ bytesCompare key key = 1 := by
      rw [bytesCompare_gt_iff]; exact lt_irrefl key
    refine ⟨rfl, [], ?_, ?_, ?_, ?_⟩
    · simp [node.pathTo, h1, h2]
    · simp [node.nodeAt, hx]
    · simp [node.nodeAt]
    · intro q
      cases q with
      | nil => simp [node.nodeAt]
      | cons b q => cases b <;> simp [node.nodeAt]

/-- The search-tree property of a node, read on the entries of its subtrees. -/
theorem BST_mk_entries (w : Int) (l r : node V) (k : Key) (v : Option V)
    (h : (node.mk w l r k v).BST) :
    (∀ e ∈ l.entries, e.1 < k) ∧ (∀ e ∈ r.entries, k < e.1) ∧ l.BST ∧ r.BST := by
  obtain ⟨hl, hr, bl, br⟩ := h
  rw [toList_eq_entries] at hl hr
  refine ⟨fun e he => ?_, fun e he => ?_, bl, br⟩
  · exact hl (e.1, e.2.1) (List.mem_map.mpr ⟨e, he, rfl⟩)
  · exact hr (e.1, e.2.1) (List.mem_map.mpr ⟨e, he, rfl⟩)

/-- In a search tree the entries with a key below the root's are those of the
left subtree. -/
theorem entries_filter_lt (w : Int) (l r : node V) (k : Key) (v : Option V)
    (h : (node.mk w l r k v).BST) :
    (node.mk w l r k v).entries.filter (fun e => decide (e.1 < k)) = l.entries := by
  obtain ⟨hl, hr, -, -⟩ := BST_mk_entries w l r k v h
  simp only [node.entries, List.filter_append, List.filter_cons, lt_irrefl, decide_False]
  have h1 : l.entries.filter (fun e => decide (e.1 < k)) = l.entries :=
    List.filter_eq_self.mpr (fun e he => by simpa using hl e he)
  have h2 : r.entries.filter (fun e => decide (e.1 < k)) = [] :=
    List.filter_eq_nil_iff.mpr (fun e he => by simpa using le_of_lt (hr e he))
  simp [h1, h2]

/-- In a search tree the entries with a key above the root's are those of the
right subtree. -/
theorem entries_filter_gt (w : Int) (l r : node V) (k : Key) (v : Option V)
    (h : (node.mk w l r k v).BST) :
    (node.mk w l r k v).entries.filter (fun e => decide (k < e.1)) = r.entries := by
  obtain ⟨hl, hr, -, -⟩ := BST_mk_entries w l r k v h
  simp only [node.entries, List.filter_append, List.filter_cons, lt_irrefl, decide_False]
  have h1 : l.entries.filter (fun e => decide (k < e.1)) = [] :=
    List.filter_eq_nil_iff.mpr (fun e he => by simpa using le_of_lt (hl e he))
  have h2 : r.entries.filter (fun e => decide (k < e.1)) = r.entries :=
    List.filter_eq_self.mpr (fun e he => by simpa using hr e he)
  simp [h1, h2]

/-- Two search trees in heap order with the same entries, the weights being
pairwise distinct, are the same tree. -/
theorem treap_unique (t1 t2 : node V) (hb1 : t1.BST) (hh1 : t1.Heap) (hb2 : t2.BST)
    (hh2 : t2.Heap) (hp : t1.entries.Perm t2.entries)
    (hnd : (t1.entries.map (fun e => e.2.2)).Nodup) : t1 = t2 := by
  induction t1 generalizing t2 with
  | nil =>
    cases t2 with
    | nil => rfl
    | mk w2 l2 r2 k2 v2 =>
      have := hp.length_eq
      simp only [node.entries, List.length_append, List.length_cons, List.length_nil] at this
      omega
  | mk w l r k v ihl ihr =>
    cases t2 with
    | nil =>
      have := hp.length_eq
      simp only [node.entries, List.length_append, List.length_cons, List.length_nil] at this
      omega
    | mk w2 l2 r2 k2 v2 =>
      have hm1 : (k, v, w) ∈ (node.mk w l r k v).entries := by simp [node.entries]
      have hm2 : (k2, v2, w2) ∈ (node.mk w2 l2 r2 k2 v2).entries := by simp [node.entries]
      have hm2' : (k2, v2, w2) ∈ (node.mk w l r k v).entries := hp.mem_iff.mpr hm2
      have hm1' : (k, v, w) ∈ (node.mk w2 l2 r2 k2 v2).entries := hp.mem_iff.mp hm1
      have hle1 : w ≤ w2 := Heap_entries_ge _ hh1 w (le_refl w) _ hm2'
      have hle2 : w2 ≤ w := Heap_entries_ge _ hh2 w2 (le_refl w2) _ hm1'
      have hw : w = w2 := le_antisymm hle1 hle2
      have heq : (k, v, w) = (k2, v2, w2) :=
        List.inj_on_of_nodup_map hnd hm1 hm2' hw
      simp only [Prod.mk.injEq] at heq
      obtain ⟨hk, hv, -⟩ := heq
      subst hk; subst hv; subst hw
      have hpl : l.entries.Perm l2.entries := by
        rw [← entries_filter_lt w l r k v hb1, ← entries_filter_lt w l2 r2 k v hb2]
        exact hp.filter _
      have hpr : r.entries.Perm r2.entries := by
        rw [← entries_filter_gt w l r k v hb1, ← entries_filter_gt w l2 r2 k v hb2]
        exact hp.filter _
      have hndl : (l.entries.map (fun e => e.2.2)).Nodup := by
        refine hnd.sublist ?_
        simp only [node.entries, List.map_append]
        exact List.sublist_append_left _ _
      have hndr : (r.entries.map (fun e => e.2.2)).Nodup := by
        refine hnd.sublist ?_
        simp only [node.entries, List.map_append, List.map_cons]
        exact (List.sublist_cons_self _ _).trans (List.sublist_append_right _ _)
      obtain ⟨-, -, bl, br⟩ := hb1
      obtain ⟨-, -, bl2, br2⟩ := hb2
      obtain ⟨-, -, hl, hr⟩ := hh1
      obtain ⟨-, -, hl2, hr2⟩ := hh2
      rw [ihl l2 bl hl bl2 hl2 hpl hndl, ihr r2 br hr br2 hr2 hpr hndr]

/-- What `Put` keeps: it succeeds, returns what `Get` returned, counts the node
it adds, and keeps the search-tree and the heap property. -/
theorem Put_props (self : Treap V) (w : Int) (key : Key) (value : Option V) :
    ∃ t1 : Treap V,
      self.Put w key value = some (t1, self.Get key) ∧
      t1.root ≠ .nil ∧
      t1.size = (if (self.Get key).2 then self.size else self.size + 1) ∧
      t1.root.count = self.root.count + (if (self.Get key).2 then 0 else 1) ∧
      (self.root.BST → t1.root.BST) ∧
      (self.root.Heap → t1.root.Heap) ∧
      ((self.Get key).2 = false →
        t1.root.entries.Perm ((key, value, w) :: self.root.entries)) := by
  obtain ⟨t1, hput, hsize, hins, hne, -, -, -⟩ := Put_spec self w key value
  obtain ⟨a, e, o, hins2, -, hheap⟩ := insert_Heap w key value self.root
  obtain ⟨b, e3, o3, hins3, -, hcount, hperm⟩ := insert_entries w key value self.root
  rw [hins] at hins2 hins3
  simp only [Option.some.injEq, Prod.mk.injEq] at hins2 hins3
  obtain ⟨rfl, -, -⟩ := hins2
  obtain ⟨rfl, rfl, -⟩ := hins3
  exact ⟨t1, hput, hne, hsize, hcount, fun hb => insert_BST self.root hb w key value _ _ _ hins,
    fun hh => (hheap hh).1, hperm⟩

/-- A run of operations always ends, in a treap whose size is its number of
nodes if it was so at the start, and which is in heap order if the start was. -/
theorem run_props (self : Treap V) (ops : List (Op V)) :
    ∃ t : Treap V, self.run ops = some t ∧
      (self.size = self.root.count → t.size = t.root.count) ∧
      (self.root.Heap → t.root.Heap) := by
  induction ops generalizing self with
  | nil => exact ⟨self, rfl, id, id⟩
  | cons op ops ih =>
    cases op with
    | put w key value =>
      obtain ⟨t1, hput, -, hsize, hcount, -, hheap, -⟩ := Put_props self w key value
      obtain ⟨t, hrun, hs, hh⟩ := ih t1
      refine ⟨t, ?_, fun h0 => hs ?_, fun h0 => hh (hheap h0)⟩
      · simp only [Treap.run, hput]
        exact hrun
      · rw [hsize, hcount, h0]
        split_ifs <;> simp
    | del key =>
      obtain ⟨t, hrun, hs, hh⟩ := ih (self.Del key).1
      refine ⟨t, ?_, fun h0 => hs ?_, fun h0 => hh ?_⟩
      · simp only [Treap.run]
        exact hrun
      · have hc := count_del self.root key
        simp only [Del_eq]
        rw [h0]
        split_ifs at hc ⊢ with h1
        · rw [← hc]; simp
        · rw [← hc]; simp
      · simp only [Del_eq]
        exact del_Heap self.root h0 key

/-- A key stored in no entry is not found. -/
theorem get_of_not_mem_entries (t : node V) (key : Key) (h : ∀ x ∈ t.entries, x.1 ≠ key) :
    t.get key = (none, false) := by
  refine get_of_not_mem t key ?_
  intro p hp
  rw [toList_eq_entries, List.mem_map] at hp
  obtain ⟨x, hx, rfl⟩ := hp
  exact h x hx

/-- A run of `Put`s of pairwise distinct keys that the tree does not hold adds
one entry for each and keeps the search-tree and the heap property. -/
theorem run_puts (es : List (Int × Key × Option V)) (self : Treap V)
    (hnd : (es.map (fun e => e.2.1)).Nodup)
    (hdis : ∀ e ∈ es, ∀ x ∈ self.root.entries, x.1 ≠ e.2.1)
    (hb : self.root.BST) (hh : self.root.Heap) :
    ∃ t : Treap V, self.run (puts es) = some t ∧ t.root.BST ∧ t.root.Heap ∧
      t.size = self.size + es.length ∧
      t.root.entries.Perm (es.map (fun e => (e.2.1, e.2.2, e.1)) ++ self.root.entries) := by
  induction es generalizing self with
  | nil => exact ⟨self, rfl, hb, hh, by simp, by simp⟩
  | cons e es ih =>
    obtain ⟨t1, hput, -, hsize, -, hbst, hheap, hperm⟩ := Put_props self e.1 e.2.1 e.2.2
    have hget : self.Get e.2.1 = (none, false) :=
      get_of_not_mem_entries self.root e.2.1 (hdis e (List.mem_cons_self _ _))
    rw [hget] at hsize hperm
    have hperm1 := hperm rfl
    rw [List.map_cons, List.nodup_cons] at hnd
    have hdis1 : ∀ a ∈ es, ∀ x ∈ t1.root.entries, x.1 ≠ a.2.1 := by
      intro a ha x hx
      rcases List.mem_cons.mp (hperm1.mem_iff.mp hx) with h | h
      · rw [h]
        intro h2
        exact hnd.1 (List.mem_map.mpr ⟨a, ha, h2.symm⟩)
      · exact hdis a (List.mem_cons_of_mem _ ha) x h
    obtain ⟨t, hrun, hb2, hh2, hs2, hp2⟩ := ih t1 hnd.2 hdis1 (hbst hb) (hheap hh)
    refine ⟨t, ?_, hb2, hh2, ?_, ?_⟩
    · simp only [puts, List.map_cons, Treap.run, hput]
      exact hrun
    · rw [hs2, hsize]
      simp
      omega
    · refine hp2.trans ?_
      refine (List.Perm.append_left _ hperm1).trans ?_
      simp only [List.map_cons, List.cons_append]
      exact List.perm_middle

/-- C11: for every treap and every key that `Get` does not find, `Del(k)`
returns `(nil, false)` and leaves the treap as it was: the same tree, node for
node, and the same size. -/
theorem Del_absent_is_noop (self : Treap V) (k : Key) (h : self.Get k = (none, false)) :
    self.Del k = (self, none, false) ∧ (self.Del k).1.Size = self.Size := by
  have hd := del_absent self.root k h
  have e : self.Del k = (self, none, false) := by
    rw [Del_eq, hd]
    simp
  exact ⟨e, by rw [e]⟩

/-- C11 at the treap `letters` and the key `"e"`, which it does not hold. -/
theorem Del_absent_is_noop_witness :
    letters.Get [101] = (none, false) ∧
    (letters.Del [101] = (letters, none, false) ∧ (letters.Del [101]).1.Size = letters.Size) :=
  ⟨by decide, Del_absent_is_noop letters [101] (by decide)⟩

/-- C12: for every treap and bounds `a > b`, `Up(a, b, visit)` and
`Down(b, a, visit)` return without calling `visit`: every visitor's state is
left as it was, the log stays empty and the count stays zero. -/
theorem crossed_bounds_visit_nothing (self : Treap V) (a b : Key) (h : b < a) :
    (∀ (τ : Type) (f : TreapIterator V τ) (s : τ), self.Up (some a) (some b) f s = s) ∧
    (∀ (τ : Type) (f : TreapIterator V τ) (s : τ), self.Down (some b) (some a) f s = s) ∧
    self.Up (some a) (some b) record [] = [] ∧
    self.Down (some b) (some a) record [] = [] ∧
    self.Up (some a) (some b) tally 0 = 0 ∧
    self.Down (some b) (some a) tally 0 = 0 :=
  ⟨fun _ f s => up_crossed_bounds a b h f self.root s,
    fun _ f s => down_crossed_bounds b a h f self.root s,
    up_crossed_bounds a b h record self.root [],
    down_crossed_bounds b a h record self.root [],
    up_crossed_bounds a b h tally self.root 0,
    down_crossed_bounds b a h tally self.root 0⟩

/-- C12 at the treap `digits` with the crossed bounds `"8"` and `"5"`. -/
theorem crossed_bounds_visit_nothing_witness :
    ([53] : Key) < [56] ∧
    ((∀ (τ : Type) (f : TreapIterator Nat τ) (s : τ),
        digits.Up (some [56]) (some [53]) f s = s) ∧
    (∀ (τ : Type) (f : TreapIterator Nat τ) (s : τ),
        digits.Down (some [53]) (some [56]) f s = s) ∧
    digits.Up (some [56]) (some [53]) record [] = [] ∧
    digits.Down (some [53]) (some [56]) record [] = [] ∧
    digits.Up (some [56]) (some [53]) tally 0 = 0 ∧
    digits.Down (some [53]) (some [56]) tally 0 = 0) :=
  ⟨by decide, crossed_bounds_visit_nothing digits [56] [53] (by decide)⟩

/-- C13: the tree of `letters` is a search tree, and `Del("b")` replaces its
root by `merge` of the subtree `"a"` and the subtree `"d"` over `"c"`, every key
of the first below every key of the second; the tree that `merge` returns has
`"c"` to the left of `"a"` and is not a search tree. -/
theorem Del_breaks_BST :
    letters.root.BST ∧
    letters.root.Heap ∧
    (∀ p ∈ (node.mk 2 .nil .nil [97] (some 1) : node Nat).toList,
      ∀ q ∈ (node.mk 1 (.mk 3 .nil .nil [99] (some 3)) .nil [100] (some 4) : node Nat).toList,
        p.1 < q.1) ∧
    merge (node.mk 2 .nil .nil [97] (some 1) : node Nat)
        (.mk 1 (.mk 3 .nil .nil [99] (some 3)) .nil [100] (some 4)) =
      .mk 1 (.mk 2 (.mk 3 .nil .nil [99] (some 3)) .nil [97] (some 1)) .nil [100] (some 4) ∧
    (letters.Del [98]).1.root =
      .mk 1 (.mk 2 (.mk 3 .nil .nil [99] (some 3)) .nil [97] (some 1)) .nil [100] (some 4) ∧
    ¬ (letters.Del [98]).1.root.BST := by
  have hm : merge (node.mk 2 .nil .nil [97] (some 1) : node Nat)
        (.mk 1 (.mk 3 .nil .nil [99] (some 3)) .nil [100] (some 4)) =
      .mk 1 (.mk 2 (.mk 3 .nil .nil [99] (some 3)) .nil [97] (some 1)) .nil [100] (some 4) := by
    simp [merge]
  have hd : (letters.Del [98]).1.root =
      .mk 1 (.mk 2 (.mk 3 .nil .nil [99] (some 3)) .nil [97] (some 1)) .nil [100] (some 4) := by
    simp [letters, Del_eq, node.del, merge, bytesCompare]
  refine ⟨by decide, by decide, by decide, hm, hd, ?_⟩
  rw [hd]
  decide

/-- C14: on a treap whose tree is a search tree, `Put(k, v)` succeeds and
leaves a search tree whose keys are the old keys and `k`, no key twice. -/
theorem Put_preserves_BST (self : Treap V) (hb : self.root.BST) (w : Int) (k : Key)
    (v : Option V) :
    ∃ (t1 : Treap V) (res : Option V × Bool),
      self.Put w k v = some (t1, res) ∧
      t1.root.BST ∧
      (∀ x : Key, x ∈ t1.root.toList.map Prod.fst ↔
        x = k ∨ x ∈ self.root.toList.map Prod.fst) ∧
      (t1.root.toList.map Prod.fst).Nodup := by
  obtain ⟨t1, hput, -, hins, -, hget, hsub, hsup⟩ := Put_spec self w k v
  have hb1 : t1.root.BST := insert_BST self.root hb w k v _ _ _ hins
  refine ⟨t1, _, hput, hb1, ?_, ?_⟩
  · intro x
    simp only [List.mem_map]
    constructor
    · rintro ⟨p, hp, rfl⟩
      rcases hsub p hp with h | h
      · left; rw [h]
      · right; exact ⟨p, h, rfl⟩
    · rintro (rfl | ⟨p, hp, rfl⟩)
      · exact ⟨(x, v), get_found_mem t1.root x v hget, rfl⟩
      · by_cases hk : p.1 = k
        · exact ⟨(k, v), get_found_mem t1.root k v hget, hk.symm⟩
        · exact ⟨p, hsup p hp hk, rfl⟩
  · have hs := toList_sorted t1.root hb1
    have hs2 : (t1.root.toList.map Prod.fst).Pairwise (fun a b => a < b) :=
      List.pairwise_map.mpr hs
    exact hs2.imp (fun h => ne_of_lt h)

/-- C14 at the treap `letters` with a `Put` of the new key `"e"`. -/
theorem Put_preserves_BST_witness :
    letters.root.BST ∧
    ∃ (t1 : Treap Nat) (res : Option Nat × Bool),
      letters.Put 7 [101] (some 5) = some (t1, res) ∧
      t1.root.BST ∧
      (∀ x : Key, x ∈ t1.root.toList.map Prod.fst ↔
        x = [101] ∨ x ∈ letters.root.toList.map Prod.fst) ∧
      (t1.root.toList.map Prod.fst).Nodup :=
  ⟨by decide, Put_preserves_BST letters (by decide) 7 [101] (some 5)⟩

/-- C15: on a treap in heap order (no node weighs more than a child it has)
every `Put` succeeds and leaves a treap in heap order, every `Del` leaves a
treap in heap order, and so does every run of operations from it; every run
from the empty treap ends in a treap in heap order. -/
theorem Heap_is_invariant (self : Treap V) (hh : self.root.Heap) :
    (∀ (w : Int) (k : Key) (v : Option V), ∃ (t1 : Treap V) (res : Option V × Bool),
      self.Put w k v = some (t1, res) ∧ t1.root.Heap) ∧
    (∀ k : Key, (self.Del k).1.root.Heap) ∧
    (∀ ops : List (Op V), ∃ t : Treap V, self.run ops = some t ∧ t.root.Heap) ∧
    (∀ ops : List (Op V), ∃ t : Treap V, Treap.new.run ops = some t ∧ t.root.Heap) := by
  refine ⟨?_, ?_, ?_, ?_⟩
  · intro w k v
    obtain ⟨t1, hput, -, -, -, -, hheap, -⟩ := Put_props self w k v
    exact ⟨t1, _, hput, hheap hh⟩
  · intro k
    rw [Del_eq]
    exact del_Heap self.root hh k
  · intro ops
    obtain ⟨t, hrun, -, hheap⟩ := run_props self ops
    exact ⟨t, hrun, hheap hh⟩
  · intro ops
    obtain ⟨t, hrun, -, hheap⟩ := run_props (Treap.new : Treap V) ops
    exact ⟨t, hrun, hheap trivial⟩

/-- C15 at the treap `letters`. -/
theorem Heap_is_invariant_witness :
    letters.root.Heap ∧
    ((∀ (w : Int) (k : Key) (v : Option Nat), ∃ (t1 : Treap Nat) (res : Option Nat × Bool),
      letters.Put w k v = some (t1, res) ∧ t1.root.Heap) ∧
    (∀ k : Key, (letters.Del k).1.root.Heap) ∧
    (∀ ops : List (Op Nat), ∃ t : Treap Nat, letters.run ops = some t ∧ t.root.Heap) ∧
    (∀ ops : List (Op Nat), ∃ t : Treap Nat, Treap.new.run ops = some t ∧ t.root.Heap)) :=
  ⟨by decide, Heap_is_invariant letters (by decide)⟩

/-- C16: every run of `Put` and `Del` from the empty treap, whatever the drawn
weights, ends in a treap whose `Size()` is the number of nodes of its tree,
which is the number of calls the unbounded `Up(nil, nil, visit)` makes; so
`Size()` is not negative. -/
theorem Size_counts_nodes (ops : List (Op V)) :
    ∃ t : Treap V, Treap.new.run ops = some t ∧
      t.Size = t.root.count ∧
      t.Up none none tally 0 = t.root.count ∧
      (t.Up none none record []).length = t.root.count ∧
      0 ≤ t.Size := by
  obtain ⟨t, hrun, hsize, -⟩ := run_props (Treap.new : Treap V) ops
  have hs : t.Size = t.root.count := hsize rfl
  refine ⟨t, hrun, hs, ?_, ?_, ?_⟩
  · rw [Treap.Up, up_unbounded, replay_tally, toList_length]
    simp
  · rw [Treap.Up, up_unbounded, replay_record, List.nil_append, toList_length]
  · rw [hs]
    exact Int.natCast_nonneg _

/-- C17: on a treap in heap order, a `Put(k, v)` of a key that `Get` finds
returns the found value and leaves every position of the tree with the node it
had, weight and key unchanged; the node that `Get` reaches now has the value
`v`, every other node its old value, and `Size()` is as before. -/
theorem Put_existing_changes_value_only (self : Treap V) (hh : self.root.Heap) (k : Key)
    (x : Option V) (hx : self.Get k = (x, true)) (w : Int) (v : Option V) :
    ∃ (t1 : Treap V) (pth : List Bool) (nw : Int),
      self.Put w k v = some (t1, x, true) ∧
      self.root.pathTo k = some pth ∧
      self.root.nodeAt pth = some (nw, k, x) ∧
      (∀ q : List Bool, t1.root.nodeAt q =
        if q = pth then some (nw, k, v) else self.root.nodeAt q) ∧
      t1.Size = self.Size := by
  obtain ⟨t1, hput, hsize, hins, -, -, -, -⟩ := Put_spec self w k v
  obtain ⟨a, e, o, hins2, -, hex⟩ := insert_existing w k v self.root
  rw [hins] at hins2
  simp only [Option.some.injEq, Prod.mk.injEq] at hins2
  obtain ⟨rfl, -, -⟩ := hins2
  obtain ⟨-, pth, hpth, hat, hsome, hq⟩ := hex hh x hx
  obtain ⟨n, hn⟩ := Option.isSome_iff_exists.mp hsome
  have hn2 : self.root.nodeAt pth = some (n.1, k, x) := by
    rw [hat, hn]; rfl
  refine ⟨t1, pth, n.1, ?_, hpth, hn2, ?_, ?_⟩
  · rw [hput, hx]
  · intro q
    rw [hq q]
    split_ifs with h1
    · rw [h1, hn2]; rfl
    · rfl
  · rw [Treap.Size, hsize, hx]
    rfl

/-- C17 at the treap `letters` with a `Put` of the stored key `"c"`. -/
theorem Put_existing_changes_value_only_witness :
    letters.root.Heap ∧ letters.Get [99] = (some 3, true) ∧
    ∃ (t1 : Treap Nat) (pth : List Bool) (nw : Int),
      letters.Put 0 [99] (some 9) = some (t1, some 3, true) ∧
      letters.root.pathTo [99] = some pth ∧
      letters.root.nodeAt pth = some (nw, [99], some 3) ∧
      (∀ q : List Bool, t1.root.nodeAt q =
        if q = pth then some (nw, [99], some 9) else letters.root.nodeAt q) ∧
      t1.Size = letters.Size :=
  ⟨by decide, by decide,
    Put_existing_changes_value_only letters (by decide) [99] (some 3) (by decide) 0 (some 9)⟩

/-- C18: for every tree, key, value and drawn weight the recursive `insert`
returns, and returns an existing node, so that the weight read from the child
and the rotation after a recursive call never meet a nil child; `Put` therefore
succeeds on every treap, the empty one included. -/
theorem Put_is_total (w : Int) (k : Key) (v : Option V) :
    (∀ t : node V, ∃ (t1 : node V) (e : Bool) (o : Option V),
      t.insert (newNode w k v) = some (t1, e, o) ∧ t1 ≠ .nil ∧ t1.weight?.isSome) ∧
    (∀ self : Treap V, ∃ (t1 : Treap V) (res : Option V × Bool),
      self.Put w k v = some (t1, res) ∧ t1.root ≠ .nil) ∧
    (∃ (t1 : Treap V) (res : Option V × Bool),
      Treap.new.Put w k v = some (t1, res) ∧ t1.root ≠ .nil) := by
  have h2 : ∀ self : Treap V, ∃ (t1 : Treap V) (res : Option V × Bool),
      self.Put w k v = some (t1, res) ∧ t1.root ≠ .nil := by
    intro self
    obtain ⟨t1, hput, -, -, hne, -, -, -⟩ := Put_spec self w k v
    exact ⟨t1, _, hput, hne⟩
  refine ⟨?_, h2, h2 Treap.new⟩
  intro t
  obtain ⟨t1, hins, hne, -, -, -⟩ := insert_newNode_spec t w k v
  refine ⟨t1, _, _, hins, hne, ?_⟩
  cases t1 with
  | nil => exact absurd rfl hne
  | mk _ _ _ _ _ => rfl

/-- C19: for a node `n` with the left child `L`, `rotateLeft(n)` returns `L` as
root with `n` as its right child and the old right subtree of `L` as the left
subtree of `n`; the `(key, value, weight)` entries keep their left-to-right
order, and a search tree stays a search tree. The same holds for
`rotateRight` and the right child. -/
theorem rotations_keep_order (w cw : Int) (a b c : node V) (k ck : Key) (v cv : Option V) :
    ((node.mk w (.mk cw a b ck cv) c k v).rotateLeft =
        some (.mk cw a (.mk w b c k v) ck cv) ∧
      (node.mk cw a (.mk w b c k v) ck cv).entries =
        (node.mk w (.mk cw a b ck cv) c k v).entries ∧
      ((node.mk w (.mk cw a b ck cv) c k v).BST → (node.mk cw a (.mk w b c k v) ck cv).BST)) ∧
    ((node.mk w a (.mk cw b c ck cv) k v).rotateRight =
        some (.mk cw (.mk w a b k v) c ck cv) ∧
      (node.mk cw (.mk w a b k v) c ck cv).entries =
        (node.mk w a (.mk cw b c ck cv) k v).entries ∧
      ((node.mk w a (.mk cw b c ck cv) k v).BST → (node.mk cw (.mk w a b k v) c ck cv).BST)) := by
  refine ⟨⟨rfl, entries_rotated_left w cw a b c k ck v cv, ?_⟩,
    ⟨rfl, entries_rotated_right w cw a b c k ck v cv, ?_⟩⟩
  · intro h
    rw [BST_iff_sorted] at h ⊢
    have e : (node.mk cw a (.mk w b c k v) ck cv).toList =
        (node.mk w (.mk cw a b ck cv) c k v).toList := by
      simp [node.toList]
    rw [e]
    exact h
  · intro h
    rw [BST_iff_sorted] at h ⊢
    have e : (node.mk cw (.mk w a b k v) c ck cv).toList =
        (node.mk w a (.mk cw b c ck cv) k v).toList := by
      simp [node.toList]
    rw [e]
    exact h

/-- C20: `Put` of the same entries, with pairwise distinct keys and pairwise
distinct weights, into the empty treap in two orders ends in the same treap;
its tree is a search tree in heap order holding those entries, and it is the
only such tree. -/
theorem Put_order_is_irrelevant (es1 es2 : List (Int × Key × Option V))
    (hp : es1.Perm es2) (hk : (es1.map (fun e => e.2.1)).Nodup)
    (hw : (es1.map (fun e => e.1)).Nodup) :
    ∃ t : Treap V,
      Treap.new.run (puts es1) = some t ∧
      Treap.new.run (puts es2) = some t ∧
      t.root.BST ∧ t.root.Heap ∧
      t.root.entries.Perm (es1.map (fun e => (e.2.1, e.2.2, e.1))) ∧
      (∀ t2 : node V, t2.BST → t2.Heap → t2.entries.Perm t.root.entries → t2 = t.root) := by
  have hk2 : (es2.map (fun e => e.2.1)).Nodup := (hp.map _).nodup_iff.mp hk
  obtain ⟨t, hrun, hb, hh, hs, hpe⟩ := run_puts es1 (Treap.new : Treap V) hk
    (fun _ _ x hx => by simp [Treap.new, node.entries] at hx) trivial trivial
  obtain ⟨t', hrun', hb', hh', hs', hpe'⟩ := run_puts es2 (Treap.new : Treap V) hk2
    (fun _ _ x hx => by simp [Treap.new, node.entries] at hx) trivial trivial
  have he : (Treap.new : Treap V).root.entries = [] := rfl
  rw [he, List.append_nil] at hpe hpe'
  have hnd : (t.root.entries.map (fun e => e.2.2)).Nodup := by
    refine ((hpe.map _).nodup_iff).mpr ?_
    rw [List.map_map]
    exact hw
  have huniq : ∀ t2 : node V, t2.BST → t2.Heap → t2.entries.Perm t.root.entries →
      t2 = t.root := by
    intro t2 hb2 hh2 hp2
    exact (treap_unique t.root t2 hb hh hb2 hh2 hp2.symm hnd).symm
  have hroot : t'.root = t.root :=
    huniq t'.root hb' hh' (hpe'.trans ((hp.map _).symm.trans hpe.symm))
  have ht : t' = t := by
    cases t with
    | mk s r =>
      cases t' with
      | mk s' r' =>
        simp only at hroot hs hs'
        rw [hroot, hs, hs', hp.length_eq]
  rw [ht] at hrun'
  exact ⟨t, hrun, hrun', hb, hh, hpe, huniq⟩

/-- C20 at the four entries of `letters`, in the order of `lettersOps` and in
the reverse order. -/
theorem Put_order_is_irrelevant_witness :
    ([(0, [98], some 2), (1, [100], some 4), (2, [97], some 1), (3, [99], some 3)] :
        List (Int × Key × Option Nat)).Perm
      [(3, [99], some 3), (2, [97], some 1), (1, [100], some 4), (0, [98], some 2)] ∧
    (([(0, [98], some 2), (1, [100], some 4), (2, [97], some 1), (3, [99], some 3)] :
        List (Int × Key × Option Nat)).map (fun e => e.2.1)).Nodup ∧
    (([(0, [98], some 2), (1, [100], some 4), (2, [97], some 1), (3, [99], some 3)] :
        List (Int × Key × Option Nat)).map (fun e => e.1)).Nodup ∧
    ∃ t : Treap Nat,
      Treap.new.run (puts [(0, [98], some 2), (1, [100], some 4), (2, [97], some 1),
        (3, [99], some 3)]) = some t ∧
      Treap.new.run (puts [(3, [99], some 3), (2, [97], some 1), (1, [100], some 4),
        (0, [98], some 2)]) = some t ∧
      t.root.BST ∧ t.root.Heap ∧
      t.root.entries.Perm
        (([(0, [98], some 2), (1, [100], some 4), (2, [97], some 1), (3, [99], some 3)] :
          List (Int × Key × Option Nat)).map (fun e => (e.2.1, e.2.2, e.1))) ∧
      (∀ t2 : node Nat, t2.BST → t2.Heap → t2.entries.Perm t.root.entries → t2 = t.root) :=
  ⟨by decide, by decide, by decide,
    Put_order_is_irrelevant _ _ (by decide) (by decide) (by decide)⟩

end treap
